import Mathlib

/-!
Shallow embedding of the separate-chaining hash table of `src/HashMap.hpp`
(class `HashMap<KeyT, ValueT>`), together with proofs about its operations.

Modelling conventions:
* `long` sizes and capacities become `Nat` (they are never negative in the
  source and never overflow for any reachable configuration);
* `double` load factors become `ℚ` (the source only ever compares exact
  dyadic ratios `size / capacity` against the configured bounds);
* the raw bucket array `vector<pair<KeyT, ValueT>> *_table` becomes a
  `List (List (K × V))` whose length is the capacity;
* `std::hash<KeyT>` becomes an explicit function argument `hashFn : K → Nat`;
* functions that throw become `Except`-valued; the C++ `while` loop of
  `_keepUpperLoadFactor` is run with explicitly sufficient fuel.
-/

set_option linter.unusedSectionVars false

set_option allowUnsafeReducibility true in
attribute [semireducible] Rat.inv Rat.mul Rat.add Rat.sub

namespace HashTableSpec

/-- The constant `TABLE_FACTOR` of `src/HashMap.hpp`. -/
def TABLE_FACTOR : Nat := 2

/-- The constant `INITIAL_CAPACITY` of `src/HashMap.hpp`. -/
def INITIAL_CAPACITY : Nat := 16

/-- The constant `DEFAULT_LOWER_LOAD_FACTOR = 0.25` of `src/HashMap.hpp`. -/
def DEFAULT_LOWER_LOAD_FACTOR : ℚ := 1 / 4

/-- The constant `DEFAULT_UPPER_LOAD_FACTOR = 0.75` of `src/HashMap.hpp`. -/
def DEFAULT_UPPER_LOAD_FACTOR : ℚ := 3 / 4

/-- The exceptions thrown by the constructors of `HashMap`
(`std::invalid_argument` with the three distinct messages of the source). -/
inductive HashMapError where
  | invalidLoadFactorsLowerHigher
  | invalidLoadFactorsOutOfRange
  | differentSizeVectors
  deriving DecidableEq

/-- The state of a `HashMap<KeyT, ValueT>` object: the fields `_capacity`,
`_size`, `_upperLoadFactor`, `_lowerLoadFactor` and `_table` of the source. -/
structure HashMap (K V : Type) where
  capacity : Nat
  size : Nat
  upperLoadFactor : ℚ
  lowerLoadFactor : ℚ
  table : List (List (K × V))
  deriving DecidableEq

variable {K V : Type} [DecidableEq K] [DecidableEq V]

/-- Reading bucket `i` of the bucket array (`_table[i]` in the source). -/
def bucketAt (table : List (List (K × V))) (i : Nat) : List (K × V) :=
  table.getD i []

/-- `_getIndex`: `std::hash<KeyT>{}(key) & (tableSize - 1)`. -/
def _getIndex (hashFn : K → Nat) (key : K) (tableSize : Nat) : Nat :=
  Nat.land (hashFn key) (tableSize - 1)

/-- The bucket-scan predicate `p.first == key` used by `containsKey`, `at`,
`erase` and `operator[]`. -/
def keyMatch (key : K) : K × V → Bool :=
  fun p => decide (p.1 = key)

/-- `_addToTable`: `table[_getIndex(key, tableSize)].push_back(pair(key, value))`. -/
def _addToTable (hashFn : K → Nat) (key : K) (value : V)
    (table : List (List (K × V))) (tableSize : Nat) : List (List (K × V)) :=
  table.set (_getIndex hashFn key tableSize)
    (bucketAt table (_getIndex hashFn key tableSize) ++ [(key, value)])

/-- All stored entries, in the order the iterator `PointerToPair` visits them:
bucket order first, then within-bucket insertion order. -/
def entries (m : HashMap K V) : List (K × V) :=
  m.table.flatten

/-- `getLoadFactor`: `(double) _size / _capacity`. -/
def getLoadFactor (m : HashMap K V) : ℚ :=
  (m.size : ℚ) / (m.capacity : ℚ)

/-- `containsKey`: scan the key's bucket for a pair whose first component is
the key. -/
def containsKey (hashFn : K → Nat) (m : HashMap K V) (key : K) : Bool :=
  (bucketAt m.table (_getIndex hashFn key m.capacity)).any (keyMatch key)

/-- `at` (both overloads): scan the key's bucket and return the value of the
first matching pair; `none` models the `std::out_of_range` throw. -/
def at? (hashFn : K → Nat) (m : HashMap K V) (key : K) : Option V :=
  ((bucketAt m.table (_getIndex hashFn key m.capacity)).find? (keyMatch key)).map Prod.snd

/-- `_reHash`: allocate a fresh table of `newCapacity` empty buckets and
re-add every entry, in iterator order, with `_addToTable`. -/
def buildTable (hashFn : K → Nat) (l : List (K × V)) (newCapacity : Nat) :
    List (List (K × V)) :=
  l.foldl (fun t p => _addToTable hashFn p.1 p.2 t newCapacity)
    (List.replicate newCapacity [])

/-- `_reHash`: replace the table with the rebuilt one and store the new
capacity (`_size` and both load-factor bounds are untouched). -/
def _reHash (hashFn : K → Nat) (m : HashMap K V) (newCapacity : Nat) : HashMap K V :=
  { m with capacity := newCapacity, table := buildTable hashFn (entries m) newCapacity }

/-- The `while (((double) _size / newCapacity) > _upperLoadFactor)
newCapacity *= TABLE_FACTOR;` loop of `_keepUpperLoadFactor`, run on explicit
fuel. Whenever the upper bound is positive — which holds for every
constructible configuration except the degenerate accepted pair
`lower = upper = 0`, on which the source loop would not terminate at all —
`growCapacityFuel` below hands it provably sufficient fuel
(`growCapacityFuel_suffices`), so the embedding agrees with the source loop
exactly where the loop terminates. -/
def growCapacity (size : Nat) (upper : ℚ) : Nat → Nat → Nat
  | newCapacity, 0 => newCapacity
  | newCapacity, fuel + 1 =>
    if upper < (size : ℚ) / (newCapacity : ℚ) then
      growCapacity size upper (newCapacity * TABLE_FACTOR) fuel
    else newCapacity

/-- Fuel that provably suffices for the doubling loop whenever
`0 < upper` (see `growCapacity_le`). -/
def growCapacityFuel (size : Nat) (upper : ℚ) : Nat :=
  size * upper.den

/-- `_keepUpperLoadFactor`: if the load factor exceeds the upper bound,
double the capacity until it does not, then rehash. -/
def _keepUpperLoadFactor (hashFn : K → Nat) (m : HashMap K V) : HashMap K V :=
  if m.upperLoadFactor < getLoadFactor m then
    _reHash hashFn m
      (growCapacity m.size m.upperLoadFactor m.capacity
        (growCapacityFuel m.size m.upperLoadFactor))
  else m

/-- `_keepLowerLoadFactor`: if the load factor is below the lower bound and
the capacity is not already 1, halve the capacity and rehash. -/
def _keepLowerLoadFactor (hashFn : K → Nat) (m : HashMap K V) : HashMap K V :=
  if getLoadFactor m < m.lowerLoadFactor ∧ m.capacity ≠ 1 then
    _reHash hashFn m (m.capacity / TABLE_FACTOR)
  else m

/-- `insert(key, value)`: `false` without any modification if the key is
present; otherwise append the entry to its bucket, increment `_size`, run the
upper-bound check, and return `true`. -/
def insert (hashFn : K → Nat) (m : HashMap K V) (key : K) (value : V) :
    HashMap K V × Bool :=
  if containsKey hashFn m key then (m, false)
  else
    (_keepUpperLoadFactor hashFn
      { m with table := _addToTable hashFn key value m.table m.capacity,
               size := m.size + 1 }, true)

/-- `erase(key)`: remove the first pair of the key's bucket whose first
component is the key; on success decrement `_size` and run the lower-bound
check. Returns `false` (no modification) when no pair matches. -/
def erase (hashFn : K → Nat) (m : HashMap K V) (key : K) : HashMap K V × Bool :=
  if (bucketAt m.table (_getIndex hashFn key m.capacity)).any (keyMatch key) then
    (_keepLowerLoadFactor hashFn
      { m with
          table := m.table.set (_getIndex hashFn key m.capacity)
            ((bucketAt m.table (_getIndex hashFn key m.capacity)).eraseP (keyMatch key)),
          size := m.size - 1 }, true)
  else (m, false)

/-- `operator[]`: return the stored value if the key is present; otherwise
push `(key, ValueT())` onto the key's bucket, increment `_size`, run the
upper-bound check, and return the freshly stored value by looking the key up
again (the recursive `return operator[](key)` of the source). -/
def subscript [Inhabited V] (hashFn : K → Nat) (m : HashMap K V) (key : K) :
    HashMap K V × Option V :=
  match at? hashFn m key with
  | some v => (m, some v)
  | none =>
    let m' := _keepUpperLoadFactor hashFn
      { m with table := _addToTable hashFn key default m.table m.capacity,
               size := m.size + 1 }
    (m', at? hashFn m' key)

/-- The state produced by a successful run of the two-argument constructor:
capacity `INITIAL_CAPACITY`, size 0, the given bounds, all buckets empty. -/
def freshHashMap (lower upper : ℚ) : HashMap K V :=
  { capacity := INITIAL_CAPACITY, size := 0,
    upperLoadFactor := upper, lowerLoadFactor := lower,
    table := List.replicate INITIAL_CAPACITY [] }

/-- `HashMap(lowerLoadFactor, upperLoadFactor)`: throws
`invalid_argument` when `upper < lower`, then when `lower < 0 || upper > 1`;
otherwise yields a fresh table. -/
def mkHashMap (lower upper : ℚ) : Except HashMapError (HashMap K V) :=
  if upper < lower then Except.error HashMapError.invalidLoadFactorsLowerHigher
  else if lower < 0 ∨ 1 < upper then Except.error HashMapError.invalidLoadFactorsOutOfRange
  else Except.ok (freshHashMap lower upper)

/-- The default constructor `HashMap()`: bounds `0.25` / `0.75`. -/
def hashMapDefault : HashMap K V :=
  freshHashMap DEFAULT_LOWER_LOAD_FACTOR DEFAULT_UPPER_LOAD_FACTOR

/-- One iteration of the loop of the vector constructor
`HashMap(keyVector, valueVector)`: if the key is already present, overwrite
the value of every matching pair of its bucket; otherwise `_addToTable` and
increment `_size`. -/
def bulkInsertStep (hashFn : K → Nat) (m : HashMap K V) (kv : K × V) : HashMap K V :=
  if containsKey hashFn m kv.1 then
    { m with
        table := m.table.set (_getIndex hashFn kv.1 m.capacity)
          ((bucketAt m.table (_getIndex hashFn kv.1 m.capacity)).map
            fun p => if p.1 = kv.1 then (p.1, kv.2) else p) }
  else
    { m with table := _addToTable hashFn kv.1 kv.2 m.table m.capacity,
             size := m.size + 1 }

/-- `HashMap(keyVector, valueVector)`: starts from the default-constructed
table, throws when the vectors differ in length, otherwise runs
`bulkInsertStep` over the pairs in order and finishes with a single
`_keepUpperLoadFactor` check. -/
def hashMapFromVectors (hashFn : K → Nat) (keyVector : List K)
    (valueVector : List V) : Except HashMapError (HashMap K V) :=
  if keyVector.length ≠ valueVector.length then
    Except.error HashMapError.differentSizeVectors
  else
    Except.ok (_keepUpperLoadFactor hashFn
      ((keyVector.zip valueVector).foldl (bulkInsertStep hashFn) hashMapDefault))

/-- `operator==`: all four scalar fields must agree, and every pair of
`other` must be found, with an equal value, by `at` on `this` (the iteration
over `other` of the source). -/
def hmBEq (hashFn : K → Nat) (m other : HashMap K V) : Bool :=
  if m.size = other.size ∧ m.upperLoadFactor = other.upperLoadFactor ∧
      m.lowerLoadFactor = other.lowerLoadFactor ∧ m.capacity = other.capacity then
    (entries other).all fun p => decide (at? hashFn m p.1 = some p.2)
  else false

/-- The traversal performed by iterating a `PointerToPair` from `begin()` to
`end()`, written in direct style: at position `p` of bucket `j`, yield the
current pair and advance within the bucket (`++_vectorIterator`); at the end
of a bucket move to the next one, skipping empty buckets
(`_getNextBucketAndIterator`); past the last bucket, stop. `iterListFrom m 0 0`
is the whole sequence an iteration visits. -/
def iterListFrom (m : HashMap K V) (j p : Nat) : List (K × V) :=
  if h : j < m.capacity then
    if hp : p < (bucketAt m.table j).length then
      (bucketAt m.table j).get ⟨p, hp⟩ :: iterListFrom m j (p + 1)
    else iterListFrom m (j + 1) 0
  else []
termination_by (m.capacity - j, (bucketAt m.table j).length - p)
decreasing_by
  · apply Prod.Lex.right
    omega
  · apply Prod.Lex.left
    omega

/-- A mutation from the public interface, for stating invariants over
arbitrary operation sequences. -/
inductive Op (K V : Type) where
  | insertOp (key : K) (value : V)
  | eraseOp (key : K)
  | subscriptOp (key : K)

/-- Run one operation, keeping the resulting table. -/
def applyOp [Inhabited V] (hashFn : K → Nat) (m : HashMap K V) : Op K V → HashMap K V
  | Op.insertOp k v => (insert hashFn m k v).1
  | Op.eraseOp k => (erase hashFn m k).1
  | Op.subscriptOp k => (subscript hashFn m k).1

/-- Run a sequence of operations from a starting table. -/
def runOps [Inhabited V] (hashFn : K → Nat) (m : HashMap K V)
    (ops : List (Op K V)) : HashMap K V :=
  ops.foldl (applyOp hashFn) m

/-- Well-formedness of a table state, maintained by every reachable state of
the source: the bucket array has `_capacity` buckets, the capacity is
positive, `_size` counts the stored entries, every entry sits in the bucket
its key hashes to, and no two entries share a key. -/
abbrev WF (hashFn : K → Nat) (m : HashMap K V) : Prop :=
  m.table.length = m.capacity ∧
  1 ≤ m.capacity ∧
  m.size = (entries m).length ∧
  (∀ i ∈ List.range m.table.length, ∀ p ∈ bucketAt m.table i,
    _getIndex hashFn p.1 m.capacity = i) ∧
  ((entries m).map Prod.fst).Nodup

/-! ### Bucket-array helper lemmas -/

theorem bucketAt_eq_getElem (t : List (List (K × V))) (i : Nat) (h : i < t.length) :
    bucketAt t i = t[i] :=
  List.getD_eq_getElem t [] h

theorem bucketAt_cons_succ (b : List (K × V)) (t : List (List (K × V))) (i : Nat) :
    bucketAt (b :: t) (i + 1) = bucketAt t i := rfl

theorem flatten_decomp (t : List (List (K × V))) (i : Nat) (h : i < t.length) :
    t.flatten = (t.take i).flatten ++ bucketAt t i ++ (t.drop (i + 1)).flatten := by
  induction t generalizing i with
  | nil => simp at h
  | cons b t ih =>
    cases i with
    | zero => simp [bucketAt]
    | succ i =>
      simp only [List.length_cons, Nat.succ_lt_succ_iff] at h
      simp only [List.flatten_cons, List.take_succ_cons, List.drop_succ_cons,
        bucketAt_cons_succ, ih i h, List.append_assoc]

theorem flatten_set (t : List (List (K × V))) (i : Nat) (b : List (K × V))
    (h : i < t.length) :
    (t.set i b).flatten = (t.take i).flatten ++ b ++ (t.drop (i + 1)).flatten := by
  induction t generalizing i with
  | nil => simp at h
  | cons c t ih =>
    cases i with
    | zero => simp
    | succ i =>
      simp only [List.length_cons, Nat.succ_lt_succ_iff] at h
      simp only [List.set_cons_succ, List.flatten_cons, List.take_succ_cons,
        List.drop_succ_cons, ih i h, List.append_assoc]

theorem bucketAt_set_self (t : List (List (K × V))) (i : Nat) (b : List (K × V))
    (h : i < t.length) :
    bucketAt (t.set i b) i = b := by
  induction t generalizing i with
  | nil => simp at h
  | cons c t ih =>
    cases i with
    | zero => rfl
    | succ i =>
      simp only [List.length_cons, Nat.succ_lt_succ_iff] at h
      simpa [bucketAt_cons_succ] using ih i h

theorem bucketAt_set_ne (t : List (List (K × V))) (i j : Nat) (b : List (K × V))
    (h : i ≠ j) :
    bucketAt (t.set i b) j = bucketAt t j := by
  induction t generalizing i j with
  | nil => simp [bucketAt]
  | cons c t ih =>
    cases i with
    | zero =>
      cases j with
      | zero => exact absurd rfl h
      | succ j => rfl
    | succ i =>
      cases j with
      | zero => rfl
      | succ j =>
        simp only [List.set_cons_succ, bucketAt_cons_succ]
        exact ih i j fun hij => h (by rw [hij])

theorem mem_bucketAt_flatten {t : List (List (K × V))} {i : Nat} {p : K × V}
    (h : i < t.length) (hp : p ∈ bucketAt t i) : p ∈ t.flatten := by
  rw [flatten_decomp t i h]
  simp only [List.mem_append]
  exact Or.inl (Or.inr hp)

theorem exists_bucket_of_mem_flatten {t : List (List (K × V))} {p : K × V}
    (hp : p ∈ t.flatten) : ∃ i, i < t.length ∧ p ∈ bucketAt t i := by
  induction t with
  | nil => simp at hp
  | cons b t ih =>
    rw [List.flatten_cons] at hp
    rcases List.mem_append.mp hp with h | h
    · exact ⟨0, by simp, h⟩
    · obtain ⟨i, hi, hpi⟩ := ih h
      exact ⟨i + 1, by simpa using hi, hpi⟩

/-! ### Bucket-scan helper lemmas -/

theorem keyMatch_iff {k : K} {p : K × V} : keyMatch k p = true ↔ p.1 = k := by
  simp [keyMatch]

theorem any_keyMatch_iff {l : List (K × V)} {k : K} :
    l.any (keyMatch k) = true ↔ ∃ v, (k, v) ∈ l := by
  rw [List.any_eq_true]
  constructor
  · rintro ⟨⟨a, b⟩, hp, hm⟩
    have : a = k := keyMatch_iff.mp hm
    subst this
    exact ⟨b, hp⟩
  · rintro ⟨v, hv⟩
    exact ⟨(k, v), hv, keyMatch_iff.mpr rfl⟩

theorem find?_keyMatch_eq_some {l : List (K × V)} {k : K} {p : K × V}
    (h : l.find? (keyMatch k) = some p) : p ∈ l ∧ p.1 = k :=
  ⟨List.mem_of_find?_eq_some h, keyMatch_iff.mp (List.find?_some h)⟩

theorem find?_keyMatch_eq_none {l : List (K × V)} {k : K} :
    l.find? (keyMatch k) = none ↔ ∀ v, (k, v) ∉ l := by
  rw [List.find?_eq_none]
  constructor
  · intro h v hv
    exact h (k, v) hv (keyMatch_iff.mpr rfl)
  · rintro h ⟨a, b⟩ hab hm
    have : a = k := keyMatch_iff.mp hm
    subst this
    exact h b hab

theorem find?_keyMatch_of_nodup {l : List (K × V)} {k : K} {v : V}
    (hn : (l.map Prod.fst).Nodup) (hm : (k, v) ∈ l) :
    l.find? (keyMatch k) = some (k, v) := by
  induction l with
  | nil => simp at hm
  | cons a t ih =>
    rw [List.map_cons, List.nodup_cons] at hn
    rcases hn with ⟨hna, hnt⟩
    by_cases hk : a.1 = k
    · rw [List.find?_cons_of_pos _ (keyMatch_iff.mpr hk)]
      rcases List.mem_cons.mp hm with h1 | h2
      · rw [← h1]
      · exact absurd (hk ▸ List.mem_map.mpr ⟨(k, v), h2, rfl⟩) hna
    · rw [List.find?_cons_of_neg _ (fun hc => hk (keyMatch_iff.mp hc))]
      apply ih hnt
      rcases List.mem_cons.mp hm with h1 | h2
      · exact absurd (by rw [← h1]) hk
      · exact h2

theorem any_eraseP_keyMatch {l : List (K × V)} {k : K}
    (hn : (l.map Prod.fst).Nodup) :
    (l.eraseP (keyMatch k)).any (keyMatch k) = false := by
  induction l with
  | nil => simp
  | cons a t ih =>
    rw [List.map_cons, List.nodup_cons] at hn
    rcases hn with ⟨hna, hnt⟩
    by_cases hk : a.1 = k
    · rw [List.eraseP_cons_of_pos (keyMatch_iff.mpr hk)]
      cases h : t.any (keyMatch k) with
      | false => rfl
      | true =>
        obtain ⟨v, hv⟩ := any_keyMatch_iff.mp h
        exact absurd (hk ▸ List.mem_map.mpr ⟨(k, v), hv, rfl⟩) hna
    · rw [List.eraseP_cons_of_neg (fun hc => hk (keyMatch_iff.mp hc))]
      simp only [List.any_cons, ih hnt, Bool.or_false]
      simp [keyMatch, hk]

theorem mem_eraseP_keyMatch {l : List (K × V)} {k : K} {p : K × V} (hne : p.1 ≠ k) :
    p ∈ l.eraseP (keyMatch k) ↔ p ∈ l := by
  induction l with
  | nil => simp
  | cons a t ih =>
    by_cases hk : a.1 = k
    · rw [List.eraseP_cons_of_pos (keyMatch_iff.mpr hk)]
      rw [List.mem_cons]
      constructor
      · exact Or.inr
      · rintro (h1 | h2)
        · exact absurd (h1 ▸ hk) hne
        · exact h2
    · rw [List.eraseP_cons_of_neg (fun hc => hk (keyMatch_iff.mp hc))]
      rw [List.mem_cons, List.mem_cons, ih]

/-! ### Lookup characterizations under well-formedness -/

theorem getIndex_lt (hashFn : K → Nat) (k : K) {cap : Nat} (h : 1 ≤ cap) :
    _getIndex hashFn k cap < cap := by
  have h2 : Nat.land (hashFn k) (cap - 1) ≤ cap - 1 := Nat.and_le_right
  unfold _getIndex
  omega

theorem wf_place {hashFn : K → Nat} {m : HashMap K V} (hWF : WF hashFn m)
    {i : Nat} (hi : i < m.table.length) {p : K × V} (hp : p ∈ bucketAt m.table i) :
    _getIndex hashFn p.1 m.capacity = i :=
  hWF.2.2.2.1 i (List.mem_range.mpr hi) p hp

theorem bucket_sublist_entries (m : HashMap K V) {i : Nat} (hi : i < m.table.length) :
    (bucketAt m.table i).Sublist (entries m) := by
  rw [entries, flatten_decomp m.table i hi, List.append_assoc]
  exact ((List.sublist_append_left _ _).trans (List.sublist_append_right _ _))

theorem bucket_keys_nodup {hashFn : K → Nat} {m : HashMap K V} (hWF : WF hashFn m)
    {i : Nat} (hi : i < m.table.length) :
    ((bucketAt m.table i).map Prod.fst).Nodup :=
  List.Nodup.sublist ((bucket_sublist_entries m hi).map Prod.fst) hWF.2.2.2.2

theorem containsKey_iff {hashFn : K → Nat} {m : HashMap K V} {k : K}
    (hWF : WF hashFn m) :
    containsKey hashFn m k = true ↔ ∃ v, (k, v) ∈ entries m := by
  obtain ⟨hlen, hcap, hsize, hplace, hnodup⟩ := hWF
  rw [containsKey, any_keyMatch_iff]
  constructor
  · rintro ⟨v, hv⟩
    refine ⟨v, mem_bucketAt_flatten ?_ hv⟩
    rw [hlen]
    exact getIndex_lt hashFn k hcap
  · rintro ⟨v, hv⟩
    obtain ⟨i, hi, hpi⟩ := exists_bucket_of_mem_flatten hv
    have he : _getIndex hashFn k m.capacity = i :=
      hplace i (List.mem_range.mpr hi) (k, v) hpi
    exact ⟨v, he ▸ hpi⟩

theorem containsKey_eq_false_iff {hashFn : K → Nat} {m : HashMap K V} {k : K}
    (hWF : WF hashFn m) :
    containsKey hashFn m k = false ↔ ∀ v, (k, v) ∉ entries m := by
  rw [← Bool.not_eq_true, containsKey_iff hWF]
  push_neg
  rfl

theorem at?_eq_some_iff {hashFn : K → Nat} {m : HashMap K V} {k : K} {v : V}
    (hWF : WF hashFn m) :
    at? hashFn m k = some v ↔ (k, v) ∈ entries m := by
  have hlen := hWF.1
  have hcap := hWF.2.1
  constructor
  · intro h
    rw [at?] at h
    rcases hfind : (bucketAt m.table (_getIndex hashFn k m.capacity)).find? (keyMatch k) with _ | p
    · rw [hfind] at h
      exact Option.noConfusion h
    · rw [hfind] at h
      obtain ⟨hmem, hfst⟩ := find?_keyMatch_eq_some hfind
      have hp : p = (k, v) := Prod.ext hfst (Option.some.inj h)
      rw [hp] at hmem
      refine mem_bucketAt_flatten ?_ hmem
      rw [hlen]
      exact getIndex_lt hashFn k hcap
  · intro hmem
    obtain ⟨i, hi, hpi⟩ := exists_bucket_of_mem_flatten hmem
    have he : _getIndex hashFn k m.capacity = i := wf_place hWF hi hpi
    rw [at?, he, find?_keyMatch_of_nodup (bucket_keys_nodup hWF hi) hpi]
    rfl

theorem at?_eq_none_iff {hashFn : K → Nat} {m : HashMap K V} {k : K}
    (hWF : WF hashFn m) :
    at? hashFn m k = none ↔ ∀ v, (k, v) ∉ entries m := by
  constructor
  · intro h v hv
    rw [(at?_eq_some_iff hWF).mpr hv] at h
    exact Option.noConfusion h
  · intro h
    cases hv : at? hashFn m k with
    | none => rfl
    | some v => exact absurd ((at?_eq_some_iff hWF).mp hv) (h v)

theorem at?_ext {hashFn : K → Nat} {m m' : HashMap K V} {k : K}
    (h : WF hashFn m) (h' : WF hashFn m')
    (hmem : ∀ v, (k, v) ∈ entries m' ↔ (k, v) ∈ entries m) :
    at? hashFn m' k = at? hashFn m k := by
  cases hv : at? hashFn m k with
  | some v => exact (at?_eq_some_iff h').mpr ((hmem v).mpr ((at?_eq_some_iff h).mp hv))
  | none =>
    rw [at?_eq_none_iff h']
    exact fun v hv' => (at?_eq_none_iff h).mp hv v ((hmem v).mp hv')

theorem containsKey_ext {hashFn : K → Nat} {m m' : HashMap K V} {k : K}
    (h : WF hashFn m) (h' : WF hashFn m')
    (hmem : ∀ v, (k, v) ∈ entries m' ↔ (k, v) ∈ entries m) :
    containsKey hashFn m' k = containsKey hashFn m k := by
  cases hv : containsKey hashFn m k with
  | true =>
    obtain ⟨v, hm⟩ := (containsKey_iff h).mp hv
    exact (containsKey_iff h').mpr ⟨v, (hmem v).mpr hm⟩
  | false =>
    rw [containsKey_eq_false_iff h']
    exact fun v hv' => (containsKey_eq_false_iff h).mp hv v ((hmem v).mp hv')

/-! ### `_addToTable` and `buildTable` lemmas -/

theorem perm_insert_middle (A b C : List (K × V)) (x : K × V) :
    (A ++ (b ++ [x]) ++ C).Perm (x :: (A ++ b ++ C)) := by
  have h1 : A ++ (b ++ [x]) ++ C = (A ++ b) ++ x :: C := by
    simp [List.append_assoc]
  rw [h1]
  exact List.perm_middle

theorem addToTable_length (hashFn : K → Nat) (key : K) (value : V)
    (t : List (List (K × V))) (cap : Nat) :
    (_addToTable hashFn key value t cap).length = t.length :=
  List.length_set t _ _

theorem addToTable_flatten_perm (hashFn : K → Nat) (key : K) (value : V)
    (t : List (List (K × V))) (cap : Nat) (h : _getIndex hashFn key cap < t.length) :
    ((_addToTable hashFn key value t cap).flatten).Perm ((key, value) :: t.flatten) := by
  unfold _addToTable
  rw [flatten_set _ _ _ h, flatten_decomp t (_getIndex hashFn key cap) h]
  exact perm_insert_middle _ _ _ _

theorem addToTable_place (hashFn : K → Nat) (key : K) (value : V)
    (t : List (List (K × V))) (cap : Nat) (hlen : t.length = cap) (hcap : 1 ≤ cap)
    (hplace : ∀ i ∈ List.range t.length, ∀ p ∈ bucketAt t i, _getIndex hashFn p.1 cap = i) :
    ∀ i ∈ List.range (_addToTable hashFn key value t cap).length,
      ∀ p ∈ bucketAt (_addToTable hashFn key value t cap) i,
        _getIndex hashFn p.1 cap = i := by
  intro i hi p hp
  rw [addToTable_length, List.mem_range] at hi
  have hidx : _getIndex hashFn key cap < t.length := by
    rw [hlen]
    exact getIndex_lt hashFn key hcap
  by_cases he : _getIndex hashFn key cap = i
  · subst he
    rw [_addToTable, bucketAt_set_self _ _ _ hidx] at hp
    rcases List.mem_append.mp hp with h1 | h2
    · exact hplace _ (List.mem_range.mpr hi) p h1
    · rw [List.mem_singleton.mp h2]
  · rw [_addToTable, bucketAt_set_ne _ _ _ _ he] at hp
    exact hplace i (List.mem_range.mpr hi) p hp

theorem buildLoop_length (hashFn : K → Nat) (l : List (K × V)) (cap : Nat) :
    ∀ t : List (List (K × V)),
      (l.foldl (fun t p => _addToTable hashFn p.1 p.2 t cap) t).length = t.length := by
  induction l with
  | nil => intro t; rfl
  | cons p l ih =>
    intro t
    rw [List.foldl_cons, ih, addToTable_length]

theorem buildLoop_flatten_perm (hashFn : K → Nat) (l : List (K × V)) (cap : Nat) :
    ∀ t : List (List (K × V)), t.length = cap → 1 ≤ cap →
      ((l.foldl (fun t p => _addToTable hashFn p.1 p.2 t cap) t).flatten).Perm
        (t.flatten ++ l) := by
  induction l with
  | nil => intro t ht hc; simp
  | cons p l ih =>
    intro t ht hc
    rw [List.foldl_cons]
    have hidx : _getIndex hashFn p.1 cap < t.length := by
      rw [ht]
      exact getIndex_lt hashFn p.1 hc
    have h1 := addToTable_flatten_perm hashFn p.1 p.2 t cap hidx
    have h2 := ih (_addToTable hashFn p.1 p.2 t cap) (by rw [addToTable_length, ht]) hc
    refine h2.trans ?_
    refine (h1.append_right l).trans ?_
    exact List.perm_middle.symm

theorem buildLoop_place (hashFn : K → Nat) (l : List (K × V)) (cap : Nat) :
    ∀ t : List (List (K × V)), t.length = cap → 1 ≤ cap →
      (∀ i ∈ List.range t.length, ∀ p ∈ bucketAt t i, _getIndex hashFn p.1 cap = i) →
      ∀ i ∈ List.range (l.foldl (fun t p => _addToTable hashFn p.1 p.2 t cap) t).length,
        ∀ p ∈ bucketAt (l.foldl (fun t p => _addToTable hashFn p.1 p.2 t cap) t) i,
          _getIndex hashFn p.1 cap = i := by
  induction l with
  | nil => intro t ht hc hplace; exact hplace
  | cons p l ih =>
    intro t ht hc hplace
    rw [List.foldl_cons]
    exact ih _ (by rw [addToTable_length, ht]) hc
      (addToTable_place hashFn p.1 p.2 t cap ht hc hplace)

theorem bucketAt_replicate_nil (n i : Nat) :
    bucketAt (List.replicate n ([] : List (K × V))) i = [] := by
  induction n generalizing i with
  | zero => simp [bucketAt]
  | succ n ih =>
    cases i with
    | zero => rfl
    | succ i => simpa [List.replicate_succ, bucketAt_cons_succ] using ih i

theorem flatten_replicate_nil (n : Nat) :
    (List.replicate n ([] : List (K × V))).flatten = [] := by
  induction n with
  | zero => rfl
  | succ n ih => simp [List.replicate_succ, ih]

theorem buildTable_length (hashFn : K → Nat) (l : List (K × V)) (cap : Nat) :
    (buildTable hashFn l cap).length = cap := by
  unfold buildTable
  rw [buildLoop_length, List.length_replicate]

theorem buildTable_flatten_perm (hashFn : K → Nat) (l : List (K × V)) (cap : Nat)
    (hc : 1 ≤ cap) : ((buildTable hashFn l cap).flatten).Perm l := by
  have h := buildLoop_flatten_perm hashFn l cap (List.replicate cap [])
    (List.length_replicate cap []) hc
  rw [flatten_replicate_nil, List.nil_append] at h
  exact h

theorem buildTable_place (hashFn : K → Nat) (l : List (K × V)) (cap : Nat)
    (hc : 1 ≤ cap) :
    ∀ i ∈ List.range (buildTable hashFn l cap).length,
      ∀ p ∈ bucketAt (buildTable hashFn l cap) i, _getIndex hashFn p.1 cap = i := by
  unfold buildTable
  refine buildLoop_place hashFn l cap (List.replicate cap [])
    (List.length_replicate cap []) hc ?_
  intro i hi p hp
  rw [bucketAt_replicate_nil] at hp
  exact absurd hp (List.not_mem_nil p)

/-! ### `_reHash` lemmas -/

theorem reHash_size (hashFn : K → Nat) (m : HashMap K V) (c : Nat) :
    (_reHash hashFn m c).size = m.size := rfl

theorem reHash_capacity (hashFn : K → Nat) (m : HashMap K V) (c : Nat) :
    (_reHash hashFn m c).capacity = c := rfl

theorem reHash_upper (hashFn : K → Nat) (m : HashMap K V) (c : Nat) :
    (_reHash hashFn m c).upperLoadFactor = m.upperLoadFactor := rfl

theorem reHash_lower (hashFn : K → Nat) (m : HashMap K V) (c : Nat) :
    (_reHash hashFn m c).lowerLoadFactor = m.lowerLoadFactor := rfl

theorem reHash_entries_perm (hashFn : K → Nat) (m : HashMap K V) (c : Nat)
    (hc : 1 ≤ c) : (entries (_reHash hashFn m c)).Perm (entries m) :=
  buildTable_flatten_perm hashFn (entries m) c hc

theorem reHash_WF {hashFn : K → Nat} {m : HashMap K V} (hWF : WF hashFn m) {c : Nat}
    (hc : 1 ≤ c) : WF hashFn (_reHash hashFn m c) := by
  refine ⟨buildTable_length hashFn (entries m) c, hc, ?_, ?_, ?_⟩
  · rw [reHash_size, hWF.2.2.1]
    exact (reHash_entries_perm hashFn m c hc).length_eq.symm
  · exact buildTable_place hashFn (entries m) c hc
  · exact ((reHash_entries_perm hashFn m c hc).map Prod.fst).nodup_iff.mpr hWF.2.2.2.2

theorem reHash_at? {hashFn : K → Nat} {m : HashMap K V} (hWF : WF hashFn m) {c : Nat}
    (hc : 1 ≤ c) (k : K) : at? hashFn (_reHash hashFn m c) k = at? hashFn m k :=
  at?_ext hWF (reHash_WF hWF hc)
    (fun _ => (reHash_entries_perm hashFn m c hc).mem_iff)

/-! ### `growCapacity` lemmas: the doubling loop of `_keepUpperLoadFactor` -/

theorem growCapacity_shape (size : Nat) (upper : ℚ) :
    ∀ (fuel cap : Nat), ∃ i, growCapacity size upper cap fuel = cap * 2 ^ i := by
  intro fuel
  induction fuel with
  | zero => intro cap; exact ⟨0, by simp [growCapacity]⟩
  | succ fuel ih =>
    intro cap
    rw [growCapacity]
    split
    · obtain ⟨i, hi⟩ := ih (cap * TABLE_FACTOR)
      refine ⟨i + 1, ?_⟩
      rw [hi, TABLE_FACTOR]
      ring
    · exact ⟨0, by simp⟩

theorem le_growCapacity (size : Nat) (upper : ℚ) (fuel cap : Nat) :
    cap ≤ growCapacity size upper cap fuel := by
  obtain ⟨i, hi⟩ := growCapacity_shape size upper fuel cap
  rw [hi]
  exact Nat.le_mul_of_pos_right cap (Nat.pos_pow_of_pos i (by omega))

theorem growCapacity_le (size : Nat) (upper : ℚ) :
    ∀ (fuel cap : Nat), 0 < cap →
      (size : ℚ) ≤ upper * ((cap : ℚ) * 2 ^ fuel) →
      (size : ℚ) / ((growCapacity size upper cap fuel : Nat) : ℚ) ≤ upper := by
  intro fuel
  induction fuel with
  | zero =>
    intro cap hcap hle
    have hc : (0 : ℚ) < (cap : ℚ) := by exact_mod_cast hcap
    rw [show growCapacity size upper cap 0 = cap from rfl, div_le_iff₀ hc]
    calc (size : ℚ) ≤ upper * ((cap : ℚ) * 2 ^ 0) := hle
    _ = upper * cap := by ring
  | succ fuel ih =>
    intro cap hcap hle
    rw [growCapacity]
    split
    · apply ih (cap * TABLE_FACTOR) (by rw [TABLE_FACTOR]; omega)
      have h2 : upper * (((cap * TABLE_FACTOR : Nat) : ℚ) * 2 ^ fuel) =
          upper * ((cap : ℚ) * 2 ^ (fuel + 1)) := by
        push_cast [TABLE_FACTOR]
        ring
      rw [h2]
      exact hle
    · next h => exact not_lt.mp h

theorem growCapacityFuel_suffices (size : Nat) (upper : ℚ) (cap : Nat)
    (hu : 0 < upper) (hcap : 1 ≤ cap) :
    (size : ℚ) ≤ upper * ((cap : ℚ) * 2 ^ (growCapacityFuel size upper)) := by
  rw [growCapacityFuel]
  have hnum : (1 : ℚ) ≤ (upper.num : ℚ) := by
    exact_mod_cast Rat.num_pos.mpr hu
  have h1 : upper * (upper.den : ℚ) = (upper.num : ℚ) := Rat.mul_den_eq_num upper
  have hpow : ((size * upper.den : Nat) : ℚ) ≤ 2 ^ (size * upper.den) := by
    exact_mod_cast (Nat.lt_two_pow (size * upper.den)).le
  have hcapq : (1 : ℚ) ≤ (cap : ℚ) := by exact_mod_cast hcap
  have hpow0 : (0 : ℚ) < 2 ^ (size * upper.den) := by positivity
  have hsd : ((size : ℚ) * upper.den) ≤ 2 ^ (size * upper.den) := by
    calc ((size : ℚ) * upper.den) = ((size * upper.den : Nat) : ℚ) := by push_cast; ring
    _ ≤ 2 ^ (size * upper.den) := hpow
  calc (size : ℚ) ≤ (upper.num : ℚ) * size := by nlinarith [Nat.cast_nonneg (α := ℚ) size]
  _ = upper * ((size : ℚ) * upper.den) := by rw [← h1]; ring
  _ ≤ upper * (2 ^ (size * upper.den)) := by
      exact mul_le_mul_of_nonneg_left hsd hu.le
  _ ≤ upper * ((cap : ℚ) * 2 ^ (size * upper.den)) := by
      refine mul_le_mul_of_nonneg_left ?_ hu.le
      nlinarith

/-! ### `_keepUpperLoadFactor` and `_keepLowerLoadFactor` lemmas -/

theorem keepUpper_size (hashFn : K → Nat) (m : HashMap K V) :
    (_keepUpperLoadFactor hashFn m).size = m.size := by
  rw [_keepUpperLoadFactor]
  split <;> rfl

theorem keepUpper_upper (hashFn : K → Nat) (m : HashMap K V) :
    (_keepUpperLoadFactor hashFn m).upperLoadFactor = m.upperLoadFactor := by
  rw [_keepUpperLoadFactor]
  split <;> rfl

theorem keepUpper_lower (hashFn : K → Nat) (m : HashMap K V) :
    (_keepUpperLoadFactor hashFn m).lowerLoadFactor = m.lowerLoadFactor := by
  rw [_keepUpperLoadFactor]
  split <;> rfl

theorem keepLower_size (hashFn : K → Nat) (m : HashMap K V) :
    (_keepLowerLoadFactor hashFn m).size = m.size := by
  rw [_keepLowerLoadFactor]
  split <;> rfl

theorem keepLower_upper (hashFn : K → Nat) (m : HashMap K V) :
    (_keepLowerLoadFactor hashFn m).upperLoadFactor = m.upperLoadFactor := by
  rw [_keepLowerLoadFactor]
  split <;> rfl

theorem keepLower_lower (hashFn : K → Nat) (m : HashMap K V) :
    (_keepLowerLoadFactor hashFn m).lowerLoadFactor = m.lowerLoadFactor := by
  rw [_keepLowerLoadFactor]
  split <;> rfl

theorem keepUpper_WF {hashFn : K → Nat} {m : HashMap K V} (hWF : WF hashFn m) :
    WF hashFn (_keepUpperLoadFactor hashFn m) := by
  rw [_keepUpperLoadFactor]
  split
  · exact reHash_WF hWF (le_trans hWF.2.1 (le_growCapacity _ _ _ _))
  · exact hWF

theorem keepUpper_entries_perm {hashFn : K → Nat} {m : HashMap K V}
    (hWF : WF hashFn m) :
    (entries (_keepUpperLoadFactor hashFn m)).Perm (entries m) := by
  rw [_keepUpperLoadFactor]
  split
  · exact reHash_entries_perm hashFn m _ (le_trans hWF.2.1 (le_growCapacity _ _ _ _))
  · exact List.Perm.refl _

theorem keepUpper_at? {hashFn : K → Nat} {m : HashMap K V} (hWF : WF hashFn m)
    (k : K) : at? hashFn (_keepUpperLoadFactor hashFn m) k = at? hashFn m k :=
  at?_ext hWF (keepUpper_WF hWF) (fun _ => (keepUpper_entries_perm hWF).mem_iff)

theorem keepLower_WF {hashFn : K → Nat} {m : HashMap K V} (hWF : WF hashFn m) :
    WF hashFn (_keepLowerLoadFactor hashFn m) := by
  rw [_keepLowerLoadFactor]
  split
  · next h =>
    refine reHash_WF hWF ?_
    have := hWF.2.1
    rw [TABLE_FACTOR]
    omega
  · exact hWF

theorem keepLower_entries_perm {hashFn : K → Nat} {m : HashMap K V}
    (hWF : WF hashFn m) :
    (entries (_keepLowerLoadFactor hashFn m)).Perm (entries m) := by
  rw [_keepLowerLoadFactor]
  split
  · next h =>
    refine reHash_entries_perm hashFn m _ ?_
    have := hWF.2.1
    rw [TABLE_FACTOR]
    omega
  · exact List.Perm.refl _

theorem keepLower_at? {hashFn : K → Nat} {m : HashMap K V} (hWF : WF hashFn m)
    (k : K) : at? hashFn (_keepLowerLoadFactor hashFn m) k = at? hashFn m k :=
  at?_ext hWF (keepLower_WF hWF) (fun _ => (keepLower_entries_perm hWF).mem_iff)

theorem keepUpper_load_le (hashFn : K → Nat) {m : HashMap K V}
    (hcap : 1 ≤ m.capacity) (hu : 0 < m.upperLoadFactor) :
    getLoadFactor (_keepUpperLoadFactor hashFn m) ≤ m.upperLoadFactor := by
  rw [_keepUpperLoadFactor]
  split
  · next h =>
    rw [getLoadFactor, reHash_size, reHash_capacity]
    exact growCapacity_le m.size m.upperLoadFactor _ m.capacity hcap
      (growCapacityFuel_suffices m.size m.upperLoadFactor m.capacity hu hcap)
  · next h => exact not_lt.mp h

/-! ### `insert` lemmas -/

theorem key_not_mem_of_not_contains {hashFn : K → Nat} {m : HashMap K V} {key : K}
    (hWF : WF hashFn m) (hnk : containsKey hashFn m key = false) :
    key ∉ (entries m).map Prod.fst := by
  intro hmem
  obtain ⟨p, hp, hfst⟩ := List.mem_map.mp hmem
  have : (key, p.2) ∈ entries m := by
    have hp' : p = (key, p.2) := Prod.ext hfst rfl
    rwa [hp'] at hp
  exact absurd ((containsKey_iff hWF).mpr ⟨p.2, this⟩) (by rw [hnk]; exact Bool.false_ne_true)

theorem insertMid_entries_perm {hashFn : K → Nat} {m : HashMap K V}
    (hWF : WF hashFn m) (key : K) (value : V) :
    (entries { m with table := _addToTable hashFn key value m.table m.capacity,
                      size := m.size + 1 }).Perm ((key, value) :: entries m) := by
  have hidx : _getIndex hashFn key m.capacity < m.table.length := by
    rw [hWF.1]
    exact getIndex_lt hashFn key hWF.2.1
  exact addToTable_flatten_perm hashFn key value m.table m.capacity hidx

theorem insertMid_WF {hashFn : K → Nat} {m : HashMap K V} {key : K}
    (hWF : WF hashFn m) (value : V) (hnk : containsKey hashFn m key = false) :
    WF hashFn { m with table := _addToTable hashFn key value m.table m.capacity,
                       size := m.size + 1 } := by
  have hperm := insertMid_entries_perm hWF key value
  refine ⟨?_, hWF.2.1, ?_, ?_, ?_⟩
  · show (_addToTable hashFn key value m.table m.capacity).length = m.capacity
    rw [addToTable_length, hWF.1]
  · show m.size + 1 = _
    rw [hperm.length_eq, List.length_cons, hWF.2.2.1]
  · exact addToTable_place hashFn key value m.table m.capacity hWF.1 hWF.2.1 hWF.2.2.2.1
  · refine (hperm.map Prod.fst).nodup_iff.mpr ?_
    rw [List.map_cons, List.nodup_cons]
    exact ⟨key_not_mem_of_not_contains hWF hnk, hWF.2.2.2.2⟩

theorem insert_of_contains {hashFn : K → Nat} {m : HashMap K V} {key : K} (value : V)
    (h : containsKey hashFn m key = true) :
    insert hashFn m key value = (m, false) := by
  rw [insert, if_pos h]

theorem insert_of_not_contains {hashFn : K → Nat} {m : HashMap K V} {key : K}
    (value : V) (h : containsKey hashFn m key = false) :
    insert hashFn m key value =
      (_keepUpperLoadFactor hashFn
        { m with table := _addToTable hashFn key value m.table m.capacity,
                 size := m.size + 1 }, true) := by
  rw [insert, if_neg (by rw [h]; exact Bool.false_ne_true)]

theorem insert_WF {hashFn : K → Nat} {m : HashMap K V} (hWF : WF hashFn m)
    (key : K) (value : V) : WF hashFn (insert hashFn m key value).1 := by
  cases h : containsKey hashFn m key with
  | true => rw [insert_of_contains value h]; exact hWF
  | false => rw [insert_of_not_contains value h]; exact keepUpper_WF (insertMid_WF hWF value h)

theorem insert_entries_perm {hashFn : K → Nat} {m : HashMap K V} {key : K}
    (hWF : WF hashFn m) (value : V) (hnk : containsKey hashFn m key = false) :
    (entries (insert hashFn m key value).1).Perm ((key, value) :: entries m) := by
  rw [insert_of_not_contains value hnk]
  exact (keepUpper_entries_perm (insertMid_WF hWF value hnk)).trans
    (insertMid_entries_perm hWF key value)

theorem insert_size {hashFn : K → Nat} {m : HashMap K V} {key : K}
    (value : V) (hnk : containsKey hashFn m key = false) :
    (insert hashFn m key value).1.size = m.size + 1 := by
  rw [insert_of_not_contains value hnk]
  exact keepUpper_size hashFn _

theorem insert_at?_self {hashFn : K → Nat} {m : HashMap K V} {key : K}
    (hWF : WF hashFn m) (value : V) (hnk : containsKey hashFn m key = false) :
    at? hashFn (insert hashFn m key value).1 key = some value := by
  refine (at?_eq_some_iff (insert_WF hWF key value)).mpr ?_
  refine (insert_entries_perm hWF value hnk).mem_iff.mpr ?_
  exact List.mem_cons_self _ _

theorem insert_at?_frame {hashFn : K → Nat} {m : HashMap K V} {key k' : K}
    (hWF : WF hashFn m) (value : V) (hne : k' ≠ key) :
    at? hashFn (insert hashFn m key value).1 k' = at? hashFn m k' := by
  cases h : containsKey hashFn m key with
  | true => rw [insert_of_contains value h]
  | false =>
    refine at?_ext hWF (insert_WF hWF key value) ?_
    intro w
    rw [(insert_entries_perm hWF value h).mem_iff, List.mem_cons]
    constructor
    · rintro (h1 | h2)
      · exact absurd (congrArg Prod.fst h1) hne
      · exact h2
    · exact Or.inr

theorem insert_load_le {hashFn : K → Nat} {m : HashMap K V} {key : K}
    (hWF : WF hashFn m) (value : V) (hnk : containsKey hashFn m key = false)
    (hu : 0 < m.upperLoadFactor) :
    getLoadFactor (insert hashFn m key value).1 ≤ m.upperLoadFactor := by
  rw [insert_of_not_contains value hnk]
  exact keepUpper_load_le hashFn hWF.2.1 hu

/-! ### `erase` lemmas -/

theorem erase_of_not_contains {hashFn : K → Nat} {m : HashMap K V} {key : K}
    (h : containsKey hashFn m key = false) :
    erase hashFn m key = (m, false) := by
  have h' : (bucketAt m.table (_getIndex hashFn key m.capacity)).any (keyMatch key) = false := h
  rw [erase, if_neg (by rw [h']; exact Bool.false_ne_true)]

theorem erase_of_contains {hashFn : K → Nat} {m : HashMap K V} {key : K}
    (h : containsKey hashFn m key = true) :
    erase hashFn m key =
      (_keepLowerLoadFactor hashFn
        { m with
            table := m.table.set (_getIndex hashFn key m.capacity)
              ((bucketAt m.table (_getIndex hashFn key m.capacity)).eraseP (keyMatch key)),
            size := m.size - 1 }, true) := by
  have h' : (bucketAt m.table (_getIndex hashFn key m.capacity)).any (keyMatch key) = true := h
  rw [erase, if_pos h']

theorem eraseMid_entries {hashFn : K → Nat} {m : HashMap K V} (hWF : WF hashFn m)
    (key : K) :
    entries { m with
        table := m.table.set (_getIndex hashFn key m.capacity)
          ((bucketAt m.table (_getIndex hashFn key m.capacity)).eraseP (keyMatch key)),
        size := m.size - 1 } =
      (m.table.take (_getIndex hashFn key m.capacity)).flatten ++
        (bucketAt m.table (_getIndex hashFn key m.capacity)).eraseP (keyMatch key) ++
        (m.table.drop (_getIndex hashFn key m.capacity + 1)).flatten := by
  have hidx : _getIndex hashFn key m.capacity < m.table.length := by
    rw [hWF.1]
    exact getIndex_lt hashFn key hWF.2.1
  exact flatten_set m.table _ _ hidx

theorem eraseMid_entries_sublist {hashFn : K → Nat} {m : HashMap K V}
    (hWF : WF hashFn m) (key : K) :
    (entries { m with
        table := m.table.set (_getIndex hashFn key m.capacity)
          ((bucketAt m.table (_getIndex hashFn key m.capacity)).eraseP (keyMatch key)),
        size := m.size - 1 }).Sublist (entries m) := by
  have hidx : _getIndex hashFn key m.capacity < m.table.length := by
    rw [hWF.1]
    exact getIndex_lt hashFn key hWF.2.1
  rw [eraseMid_entries hWF key, entries, flatten_decomp m.table _ hidx]
  exact (List.Sublist.append (List.Sublist.refl _)
    (List.eraseP_sublist _)).append (List.Sublist.refl _)

theorem eraseMid_WF {hashFn : K → Nat} {m : HashMap K V} {key : K}
    (hWF : WF hashFn m) (hk : containsKey hashFn m key = true) :
    WF hashFn { m with
        table := m.table.set (_getIndex hashFn key m.capacity)
          ((bucketAt m.table (_getIndex hashFn key m.capacity)).eraseP (keyMatch key)),
        size := m.size - 1 } := by
  have hidx : _getIndex hashFn key m.capacity < m.table.length := by
    rw [hWF.1]
    exact getIndex_lt hashFn key hWF.2.1
  obtain ⟨v, hv⟩ := any_keyMatch_iff.mp hk
  refine ⟨?_, hWF.2.1, ?_, ?_, ?_⟩
  · show (m.table.set _ _).length = m.capacity
    rw [List.length_set, hWF.1]
  · show m.size - 1 = _
    rw [eraseMid_entries hWF key]
    have hb : ((bucketAt m.table (_getIndex hashFn key m.capacity)).eraseP
        (keyMatch key)).length =
        (bucketAt m.table (_getIndex hashFn key m.capacity)).length - 1 :=
      List.length_eraseP_of_mem hv (keyMatch_iff.mpr rfl)
    have hbpos : 1 ≤ (bucketAt m.table (_getIndex hashFn key m.capacity)).length :=
      List.length_pos.mpr (List.ne_nil_of_mem hv)
    have hm := hWF.2.2.1
    rw [entries, flatten_decomp m.table _ hidx] at hm
    simp only [List.length_append] at hm ⊢
    omega
  · intro i hi p hp
    rw [List.mem_range, List.length_set] at hi
    by_cases he : _getIndex hashFn key m.capacity = i
    · subst he
      rw [show ({ m with
          table := m.table.set (_getIndex hashFn key m.capacity)
            ((bucketAt m.table (_getIndex hashFn key m.capacity)).eraseP (keyMatch key)),
          size := m.size - 1 } : HashMap K V).table = m.table.set _ _ from rfl,
        bucketAt_set_self _ _ _ hidx] at hp
      exact hWF.2.2.2.1 _ (List.mem_range.mpr hi) p ((List.eraseP_sublist _).subset hp)
    · rw [show ({ m with
          table := m.table.set (_getIndex hashFn key m.capacity)
            ((bucketAt m.table (_getIndex hashFn key m.capacity)).eraseP (keyMatch key)),
          size := m.size - 1 } : HashMap K V).table = m.table.set _ _ from rfl,
        bucketAt_set_ne _ _ _ _ he] at hp
      exact hWF.2.2.2.1 i (List.mem_range.mpr hi) p hp
  · exact List.Nodup.sublist
      ((eraseMid_entries_sublist hWF key).map Prod.fst) hWF.2.2.2.2

theorem eraseMid_mem_iff {hashFn : K → Nat} {m : HashMap K V} {key : K}
    (hWF : WF hashFn m) {p : K × V} (hne : p.1 ≠ key) :
    p ∈ entries { m with
        table := m.table.set (_getIndex hashFn key m.capacity)
          ((bucketAt m.table (_getIndex hashFn key m.capacity)).eraseP (keyMatch key)),
        size := m.size - 1 } ↔ p ∈ entries m := by
  have hidx : _getIndex hashFn key m.capacity < m.table.length := by
    rw [hWF.1]
    exact getIndex_lt hashFn key hWF.2.1
  rw [eraseMid_entries hWF key, entries, flatten_decomp m.table _ hidx]
  simp only [List.mem_append]
  rw [mem_eraseP_keyMatch hne]

theorem eraseMid_key_not_mem {hashFn : K → Nat} {m : HashMap K V} {key : K}
    (hWF : WF hashFn m) (hk : containsKey hashFn m key = true) (v : V) :
    (key, v) ∉ entries { m with
        table := m.table.set (_getIndex hashFn key m.capacity)
          ((bucketAt m.table (_getIndex hashFn key m.capacity)).eraseP (keyMatch key)),
        size := m.size - 1 } := by
  intro hmem
  have hWFmid := eraseMid_WF hWF hk
  obtain ⟨i, hi, hpi⟩ := exists_bucket_of_mem_flatten hmem
  have he : _getIndex hashFn key m.capacity = i := wf_place hWFmid hi hpi
  subst he
  have hidx : _getIndex hashFn key m.capacity < m.table.length := by
    rw [hWF.1]
    exact getIndex_lt hashFn key hWF.2.1
  rw [show ({ m with
      table := m.table.set (_getIndex hashFn key m.capacity)
        ((bucketAt m.table (_getIndex hashFn key m.capacity)).eraseP (keyMatch key)),
      size := m.size - 1 } : HashMap K V).table = m.table.set _ _ from rfl,
    bucketAt_set_self _ _ _ hidx] at hpi
  have hnb : ((bucketAt m.table (_getIndex hashFn key m.capacity)).map Prod.fst).Nodup :=
    bucket_keys_nodup hWF hidx
  have := any_eraseP_keyMatch (l := bucketAt m.table (_getIndex hashFn key m.capacity))
    (k := key) hnb
  rw [← Bool.not_eq_true, any_keyMatch_iff] at this
  exact this ⟨v, hpi⟩

theorem erase_WF {hashFn : K → Nat} {m : HashMap K V} (hWF : WF hashFn m) (key : K) :
    WF hashFn (erase hashFn m key).1 := by
  cases h : containsKey hashFn m key with
  | true => rw [erase_of_contains h]; exact keepLower_WF (eraseMid_WF hWF h)
  | false => rw [erase_of_not_contains h]; exact hWF

theorem erase_containsKey_self {hashFn : K → Nat} {m : HashMap K V} (hWF : WF hashFn m)
    (key : K) : containsKey hashFn (erase hashFn m key).1 key = false := by
  cases h : containsKey hashFn m key with
  | true =>
    rw [erase_of_contains h]
    rw [containsKey_eq_false_iff (keepLower_WF (eraseMid_WF hWF h))]
    intro v hv
    have hperm := keepLower_entries_perm (eraseMid_WF hWF h)
    exact eraseMid_key_not_mem hWF h v (hperm.mem_iff.mp hv)
  | false => rw [erase_of_not_contains h]; exact h

theorem erase_at?_frame {hashFn : K → Nat} {m : HashMap K V} {key k' : K}
    (hWF : WF hashFn m) (hne : k' ≠ key) :
    at? hashFn (erase hashFn m key).1 k' = at? hashFn m k' := by
  cases h : containsKey hashFn m key with
  | true =>
    rw [erase_of_contains h]
    refine at?_ext hWF (keepLower_WF (eraseMid_WF hWF h)) ?_
    intro w
    rw [(keepLower_entries_perm (eraseMid_WF hWF h)).mem_iff]
    exact eraseMid_mem_iff hWF hne
  | false => rw [erase_of_not_contains h]

theorem erase_size_found {hashFn : K → Nat} {m : HashMap K V} {key : K}
    (h : containsKey hashFn m key = true) :
    (erase hashFn m key).1.size = m.size - 1 := by
  rw [erase_of_contains h]
  exact keepLower_size hashFn _

theorem erase_capacity_found {hashFn : K → Nat} {m : HashMap K V} {key : K}
    (h : containsKey hashFn m key = true) :
    (erase hashFn m key).1.capacity =
      if ((m.size - 1 : Nat) : ℚ) / (m.capacity : ℚ) < m.lowerLoadFactor ∧ m.capacity ≠ 1
      then m.capacity / TABLE_FACTOR else m.capacity := by
  rw [erase_of_contains h, _keepLowerLoadFactor]
  split
  · next h1 =>
    have h1' : ((m.size - 1 : Nat) : ℚ) / (m.capacity : ℚ) < m.lowerLoadFactor ∧
        m.capacity ≠ 1 := h1
    rw [reHash_capacity, if_pos h1']
  · next h1 =>
    have h1' : ¬(((m.size - 1 : Nat) : ℚ) / (m.capacity : ℚ) < m.lowerLoadFactor ∧
        m.capacity ≠ 1) := h1
    rw [if_neg h1']

/-! ### `operator[]` (subscript) lemmas -/

theorem subscript_of_some [Inhabited V] {hashFn : K → Nat} {m : HashMap K V}
    {key : K} {v : V} (h : at? hashFn m key = some v) :
    subscript hashFn m key = (m, some v) := by
  simp only [subscript, h]

theorem subscript_of_none [Inhabited V] {hashFn : K → Nat} {m : HashMap K V}
    {key : K} (h : at? hashFn m key = none) :
    subscript hashFn m key =
      (_keepUpperLoadFactor hashFn
        { m with table := _addToTable hashFn key default m.table m.capacity,
                 size := m.size + 1 },
       at? hashFn (_keepUpperLoadFactor hashFn
        { m with table := _addToTable hashFn key default m.table m.capacity,
                 size := m.size + 1 }) key) := by
  simp only [subscript, h]

theorem not_contains_of_at?_none {hashFn : K → Nat} {m : HashMap K V} {key : K}
    (hWF : WF hashFn m) (h : at? hashFn m key = none) :
    containsKey hashFn m key = false :=
  (containsKey_eq_false_iff hWF).mpr ((at?_eq_none_iff hWF).mp h)

theorem subscript_WF [Inhabited V] {hashFn : K → Nat} {m : HashMap K V}
    (hWF : WF hashFn m) (key : K) : WF hashFn (subscript hashFn m key).1 := by
  cases h : at? hashFn m key with
  | some v => rw [subscript_of_some h]; exact hWF
  | none =>
    rw [subscript_of_none h]
    exact keepUpper_WF (insertMid_WF hWF default (not_contains_of_at?_none hWF h))

theorem subscript_entries_perm_none [Inhabited V] {hashFn : K → Nat}
    {m : HashMap K V} {key : K} (hWF : WF hashFn m) (h : at? hashFn m key = none) :
    (entries (subscript hashFn m key).1).Perm ((key, default) :: entries m) := by
  rw [subscript_of_none h]
  exact (keepUpper_entries_perm
      (insertMid_WF hWF default (not_contains_of_at?_none hWF h))).trans
    (insertMid_entries_perm hWF key default)

theorem subscript_at?_frame [Inhabited V] {hashFn : K → Nat} {m : HashMap K V}
    {key k' : K} (hWF : WF hashFn m) (hne : k' ≠ key) :
    at? hashFn (subscript hashFn m key).1 k' = at? hashFn m k' := by
  cases h : at? hashFn m key with
  | some v => rw [subscript_of_some h]
  | none =>
    refine at?_ext hWF (subscript_WF hWF key) ?_
    intro w
    rw [(subscript_entries_perm_none hWF h).mem_iff, List.mem_cons]
    constructor
    · rintro (h1 | h2)
      · exact absurd (congrArg Prod.fst h1) hne
      · exact h2
    · exact Or.inr

/-! ### Capacity and load-factor invariant lemmas -/

theorem pow2_half {c : Nat} (h : ∃ j, c = 2 ^ j) (hne : c ≠ 1) :
    ∃ j, c / 2 = 2 ^ j := by
  obtain ⟨j, rfl⟩ := h
  cases j with
  | zero => simp at hne
  | succ j =>
    refine ⟨j, ?_⟩
    rw [pow_succ]
    exact Nat.mul_div_cancel _ (by omega)

theorem keepUpper_capacity_pow2 {hashFn : K → Nat} {m : HashMap K V}
    (h : ∃ j, m.capacity = 2 ^ j) :
    ∃ j, (_keepUpperLoadFactor hashFn m).capacity = 2 ^ j := by
  rw [_keepUpperLoadFactor]
  split
  · obtain ⟨i, hi⟩ := growCapacity_shape m.size m.upperLoadFactor
      (growCapacityFuel m.size m.upperLoadFactor) m.capacity
    obtain ⟨j, hj⟩ := h
    exact ⟨j + i, by rw [reHash_capacity, hi, hj, pow_add]⟩
  · exact h

theorem keepLower_capacity_pow2 {hashFn : K → Nat} {m : HashMap K V}
    (h : ∃ j, m.capacity = 2 ^ j) :
    ∃ j, (_keepLowerLoadFactor hashFn m).capacity = 2 ^ j := by
  rw [_keepLowerLoadFactor]
  split
  · next hc =>
    rw [reHash_capacity, TABLE_FACTOR]
    exact pow2_half h hc.2
  · exact h

theorem keepLower_load_le (hashFn : K → Nat) {m : HashMap K V}
    (hpow : ∃ j, m.capacity = 2 ^ j)
    (hload : getLoadFactor m ≤ m.upperLoadFactor)
    (h2l : 2 * m.lowerLoadFactor ≤ m.upperLoadFactor) :
    getLoadFactor (_keepLowerLoadFactor hashFn m) ≤ m.upperLoadFactor := by
  rw [_keepLowerLoadFactor]
  split
  · next hc =>
    obtain ⟨j, hj⟩ := hpow
    have hj1 : 1 ≤ j := by
      rcases Nat.eq_zero_or_pos j with h0 | h1
      · exact absurd (by rw [hj, h0, pow_zero]) hc.2
      · exact h1
    obtain ⟨j', rfl⟩ : ∃ j', j = j' + 1 := ⟨j - 1, by omega⟩
    rw [getLoadFactor, reHash_size, reHash_capacity, TABLE_FACTOR, hj]
    have hhalf : (2 ^ (j' + 1) / 2 : Nat) = 2 ^ j' := by
      rw [pow_succ]
      exact Nat.mul_div_cancel _ (by omega)
    rw [hhalf]
    have h1 : getLoadFactor m < m.lowerLoadFactor := hc.1
    rw [getLoadFactor, hj] at h1
    have hpos : (0 : ℚ) < ((2 ^ j' : Nat) : ℚ) := by positivity
    have hcast : ((2 ^ (j' + 1) : Nat) : ℚ) = 2 * ((2 ^ j' : Nat) : ℚ) := by
      push_cast
      rw [pow_succ]
      ring
    rw [hcast, div_lt_iff₀ (by positivity)] at h1
    rw [div_le_iff₀ hpos]
    nlinarith [mul_nonneg (sub_nonneg.mpr h2l) hpos.le]
  · exact hload

theorem size_pred_load_le {m : HashMap K V} (hcap : 1 ≤ m.capacity)
    (hload : getLoadFactor m ≤ m.upperLoadFactor) :
    ((m.size - 1 : Nat) : ℚ) / (m.capacity : ℚ) ≤ m.upperLoadFactor := by
  refine le_trans ?_ hload
  rw [getLoadFactor]
  gcongr
  exact_mod_cast Nat.sub_le m.size 1

/-- The invariant tracked along an operation sequence for the load-factor
claim: the bounds are those fixed at construction, the load factor is at most
the upper bound, and the capacity is a power of two. -/
def LoadInv (m : HashMap K V) (lower upper : ℚ) : Prop :=
  m.lowerLoadFactor = lower ∧ m.upperLoadFactor = upper ∧
  getLoadFactor m ≤ upper ∧ ∃ j, m.capacity = 2 ^ j

theorem applyOp_loadInv [Inhabited V] (hashFn : K → Nat) {m : HashMap K V}
    {lower upper : ℚ} (hu : 0 < upper) (h : LoadInv m lower upper) (op : Op K V)
    (h2l : 2 * lower ≤ upper) :
    LoadInv (applyOp hashFn m op) lower upper := by
  obtain ⟨hl, hup, hload, hpow⟩ := h
  have hcap1 : 1 ≤ m.capacity := by
    obtain ⟨j, hj⟩ := hpow
    rw [hj]
    exact Nat.one_le_two_pow
  have hum : (0 : ℚ) < m.upperLoadFactor := by rw [hup]; exact hu
  have h2lm : 2 * m.lowerLoadFactor ≤ m.upperLoadFactor := by rw [hl, hup]; exact h2l
  cases op with
  | insertOp k v =>
    show LoadInv (insert hashFn m k v).1 lower upper
    cases hck : containsKey hashFn m k with
    | true =>
      rw [insert_of_contains v hck]
      exact ⟨hl, hup, hload, hpow⟩
    | false =>
      rw [insert_of_not_contains v hck]
      have hkey := keepUpper_load_le hashFn
        (m := { m with table := _addToTable hashFn k v m.table m.capacity,
                       size := m.size + 1 }) hcap1 hum
      refine ⟨?_, ?_, le_of_le_of_eq hkey hup, keepUpper_capacity_pow2 hpow⟩
      · rw [keepUpper_lower]; exact hl
      · rw [keepUpper_upper]; exact hup
  | eraseOp k =>
    show LoadInv (erase hashFn m k).1 lower upper
    cases hck : containsKey hashFn m k with
    | false =>
      rw [erase_of_not_contains hck]
      exact ⟨hl, hup, hload, hpow⟩
    | true =>
      rw [erase_of_contains hck]
      have hkey := keepLower_load_le hashFn
        (m := { m with
            table := m.table.set (_getIndex hashFn k m.capacity)
              ((bucketAt m.table (_getIndex hashFn k m.capacity)).eraseP (keyMatch k)),
            size := m.size - 1 })
        hpow (size_pred_load_le hcap1 (le_of_le_of_eq hload hup.symm)) h2lm
      refine ⟨?_, ?_, le_of_le_of_eq hkey hup, keepLower_capacity_pow2 hpow⟩
      · rw [keepLower_lower]; exact hl
      · rw [keepLower_upper]; exact hup
  | subscriptOp k =>
    show LoadInv (subscript hashFn m k).1 lower upper
    cases hat : at? hashFn m k with
    | some v =>
      rw [subscript_of_some hat]
      exact ⟨hl, hup, hload, hpow⟩
    | none =>
      rw [subscript_of_none hat]
      have hkey := keepUpper_load_le hashFn
        (m := { m with table := _addToTable hashFn k default m.table m.capacity,
                       size := m.size + 1 }) hcap1 hum
      refine ⟨?_, ?_, le_of_le_of_eq hkey hup, keepUpper_capacity_pow2 hpow⟩
      · rw [keepUpper_lower]; exact hl
      · rw [keepUpper_upper]; exact hup

theorem runOps_loadInv [Inhabited V] (hashFn : K → Nat) {m : HashMap K V}
    {lower upper : ℚ} (hu : 0 < upper) (h2l : 2 * lower ≤ upper)
    (h : LoadInv m lower upper) (ops : List (Op K V)) :
    LoadInv (runOps hashFn m ops) lower upper := by
  induction ops generalizing m with
  | nil => exact h
  | cons op ops ih => exact ih (applyOp_loadInv hashFn hu h op h2l)

theorem applyOp_capacity_pow2 [Inhabited V] (hashFn : K → Nat) {m : HashMap K V}
    (h : ∃ j, m.capacity = 2 ^ j) (op : Op K V) :
    ∃ j, (applyOp hashFn m op).capacity = 2 ^ j := by
  cases op with
  | insertOp k v =>
    show ∃ j, (insert hashFn m k v).1.capacity = 2 ^ j
    cases hck : containsKey hashFn m k with
    | true => rw [insert_of_contains v hck]; exact h
    | false => rw [insert_of_not_contains v hck]; exact keepUpper_capacity_pow2 h
  | eraseOp k =>
    show ∃ j, (erase hashFn m k).1.capacity = 2 ^ j
    cases hck : containsKey hashFn m k with
    | false => rw [erase_of_not_contains hck]; exact h
    | true => rw [erase_of_contains hck]; exact keepLower_capacity_pow2 h
  | subscriptOp k =>
    show ∃ j, (subscript hashFn m k).1.capacity = 2 ^ j
    cases hat : at? hashFn m k with
    | some v => rw [subscript_of_some hat]; exact h
    | none => rw [subscript_of_none hat]; exact keepUpper_capacity_pow2 h

theorem runOps_capacity_pow2 [Inhabited V] (hashFn : K → Nat) {m : HashMap K V}
    (h : ∃ j, m.capacity = 2 ^ j) (ops : List (Op K V)) :
    ∃ j, (runOps hashFn m ops).capacity = 2 ^ j := by
  induction ops generalizing m with
  | nil => exact h
  | cons op ops ih => exact ih (applyOp_capacity_pow2 hashFn h op)

/-! ### Iterator traversal lemmas -/

theorem iterListFrom_stop (m : HashMap K V) (j p : Nat) (h : ¬ j < m.capacity) :
    iterListFrom m j p = [] := by
  rw [iterListFrom, dif_neg h]

theorem iterListFrom_bucket (m : HashMap K V) {j : Nat} (h : j < m.capacity) :
    ∀ n p, (bucketAt m.table j).length - p ≤ n →
      iterListFrom m j p = (bucketAt m.table j).drop p ++ iterListFrom m (j + 1) 0 := by
  intro n
  induction n with
  | zero =>
    intro p hp
    have hp' : ¬ p < (bucketAt m.table j).length := by omega
    rw [iterListFrom, dif_pos h, dif_neg hp', List.drop_eq_nil_of_le (by omega),
      List.nil_append]
  | succ n ih =>
    intro p hp
    by_cases hp' : p < (bucketAt m.table j).length
    · rw [iterListFrom, dif_pos h, dif_pos hp', ih (p + 1) (by omega),
        List.drop_eq_getElem_cons hp', List.cons_append]
      rfl
    · rw [iterListFrom, dif_pos h, dif_neg hp', List.drop_eq_nil_of_le (by omega),
        List.nil_append]

theorem iterListFrom_zero (m : HashMap K V) {j : Nat} (h : j < m.capacity) :
    iterListFrom m j 0 = bucketAt m.table j ++ iterListFrom m (j + 1) 0 := by
  rw [iterListFrom_bucket m h (bucketAt m.table j).length 0 (by omega), List.drop_zero]

theorem iterList_eq_flatten_from (m : HashMap K V) (hlen : m.table.length = m.capacity) :
    ∀ n j, m.capacity - j ≤ n → iterListFrom m j 0 = (m.table.drop j).flatten := by
  intro n
  induction n with
  | zero =>
    intro j hj
    have h : ¬ j < m.capacity := by omega
    rw [iterListFrom_stop m j 0 h, List.drop_eq_nil_of_le (by omega), List.flatten_nil]
  | succ n ih =>
    intro j hj
    by_cases h : j < m.capacity
    · have hjl : j < m.table.length := by rw [hlen]; exact h
      rw [iterListFrom_zero m h, ih (j + 1) (by omega), List.drop_eq_getElem_cons hjl,
        List.flatten_cons, bucketAt_eq_getElem m.table j hjl]
    · rw [iterListFrom_stop m j 0 h, List.drop_eq_nil_of_le (by omega), List.flatten_nil]

theorem iterList_eq_entries (m : HashMap K V) (hlen : m.table.length = m.capacity) :
    iterListFrom m 0 0 = entries m := by
  rw [iterList_eq_flatten_from m hlen m.capacity 0 (by omega), List.drop_zero]
  rfl

/-! ### `operator==` lemmas -/

theorem mem_keys_iff {l : List (K × V)} {k : K} :
    k ∈ l.map Prod.fst ↔ ∃ v, (k, v) ∈ l := by
  rw [List.mem_map]
  constructor
  · rintro ⟨⟨a, b⟩, hp, rfl⟩
    exact ⟨b, hp⟩
  · rintro ⟨v, hv⟩
    exact ⟨(k, v), hv, rfl⟩

theorem keys_mem_iff_of_all {hashFn : K → Nat} {m₁ m₂ : HashMap K V}
    (h₁ : WF hashFn m₁) (h₂ : WF hashFn m₂) (hs : m₁.size = m₂.size)
    (hall : ∀ p ∈ entries m₂, at? hashFn m₁ p.1 = some p.2) :
    ∀ k, k ∈ (entries m₁).map Prod.fst ↔ k ∈ (entries m₂).map Prod.fst := by
  have hsub : ∀ k ∈ (entries m₂).map Prod.fst, k ∈ (entries m₁).map Prod.fst := by
    intro k hk
    obtain ⟨v, hv⟩ := mem_keys_iff.mp hk
    have hm : (k, v) ∈ entries m₁ := (at?_eq_some_iff h₁).mp (hall (k, v) hv)
    exact mem_keys_iff.mpr ⟨v, hm⟩
  have hn₁ : ((entries m₁).map Prod.fst).Nodup := h₁.2.2.2.2
  have hn₂ : ((entries m₂).map Prod.fst).Nodup := h₂.2.2.2.2
  have hlen : ((entries m₁).map Prod.fst).length = ((entries m₂).map Prod.fst).length := by
    simp only [List.length_map]
    rw [← h₁.2.2.1, ← h₂.2.2.1, hs]
  have hfin : ((entries m₂).map Prod.fst).toFinset = ((entries m₁).map Prod.fst).toFinset := by
    apply Finset.eq_of_subset_of_card_le
    · intro k hk
      rw [List.mem_toFinset] at hk ⊢
      exact hsub k hk
    · rw [List.toFinset_card_of_nodup hn₁, List.toFinset_card_of_nodup hn₂, hlen]
  intro k
  constructor
  · intro hk
    have hk' : k ∈ ((entries m₁).map Prod.fst).toFinset := List.mem_toFinset.mpr hk
    rw [← hfin] at hk'
    exact List.mem_toFinset.mp hk'
  · exact hsub k

theorem hmBEq_iff {hashFn : K → Nat} {m₁ m₂ : HashMap K V}
    (h₁ : WF hashFn m₁) (h₂ : WF hashFn m₂) :
    hmBEq hashFn m₁ m₂ = true ↔
      (m₁.size = m₂.size ∧ m₁.upperLoadFactor = m₂.upperLoadFactor ∧
       m₁.lowerLoadFactor = m₂.lowerLoadFactor ∧ m₁.capacity = m₂.capacity ∧
       ∀ k, at? hashFn m₁ k = at? hashFn m₂ k) := by
  rw [hmBEq]
  split
  · next hscal =>
    obtain ⟨hs, hu, hl, hc⟩ := hscal
    rw [List.all_eq_true]
    constructor
    · intro hall
      have hall' : ∀ p ∈ entries m₂, at? hashFn m₁ p.1 = some p.2 := by
        intro p hp
        exact of_decide_eq_true (hall p hp)
      refine ⟨hs, hu, hl, hc, ?_⟩
      intro k
      by_cases hk : ∃ v, (k, v) ∈ entries m₂
      · obtain ⟨v, hv⟩ := hk
        rw [(at?_eq_some_iff h₂).mpr hv]
        exact hall' (k, v) hv
      · push_neg at hk
        rw [(at?_eq_none_iff h₂).mpr hk, at?_eq_none_iff h₁]
        intro v hv
        have hk₁ : k ∈ (entries m₁).map Prod.fst := mem_keys_iff.mpr ⟨v, hv⟩
        have hk₂ := (keys_mem_iff_of_all h₁ h₂ hs hall' k).mp hk₁
        obtain ⟨w, hw⟩ := mem_keys_iff.mp hk₂
        exact hk w hw
    · rintro ⟨_, _, _, _, hat⟩
      intro p hp
      refine decide_eq_true ?_
      rw [hat p.1]
      exact (at?_eq_some_iff h₂).mpr hp
  · next hscal =>
    constructor
    · intro hfalse
      exact absurd hfalse Bool.false_ne_true
    · rintro ⟨hs, hu, hl, hc, _⟩
      exact absurd ⟨hs, hu, hl, hc⟩ hscal

/-! ### Fresh-table lemmas -/

theorem freshHashMap_WF (hashFn : K → Nat) (lower upper : ℚ) :
    WF hashFn (freshHashMap lower upper : HashMap K V) := by
  refine ⟨?_, ?_, ?_, ?_, ?_⟩
  · rw [show (freshHashMap lower upper : HashMap K V).table =
      List.replicate INITIAL_CAPACITY [] from rfl, List.length_replicate]
    rfl
  · show 1 ≤ INITIAL_CAPACITY
    rw [INITIAL_CAPACITY]
    omega
  · show 0 = (entries (freshHashMap lower upper : HashMap K V)).length
    rw [entries, show (freshHashMap lower upper : HashMap K V).table =
      List.replicate INITIAL_CAPACITY [] from rfl, flatten_replicate_nil]
    rfl
  · intro i hi p hp
    rw [show (freshHashMap lower upper : HashMap K V).table =
      List.replicate INITIAL_CAPACITY [] from rfl, bucketAt_replicate_nil] at hp
    exact absurd hp (List.not_mem_nil p)
  · rw [entries, show (freshHashMap lower upper : HashMap K V).table =
      List.replicate INITIAL_CAPACITY [] from rfl, flatten_replicate_nil]
    exact List.nodup_nil

theorem freshHashMap_loadInv (lower upper : ℚ) (hu : 0 < upper) :
    LoadInv (freshHashMap lower upper : HashMap K V) lower upper := by
  refine ⟨rfl, rfl, ?_, ⟨4, rfl⟩⟩
  show ((0 : Nat) : ℚ) / ((INITIAL_CAPACITY : Nat) : ℚ) ≤ upper
  rw [Nat.cast_zero, zero_div]
  exact hu.le

theorem containsKey_eq_of_at? {hashFn : K → Nat} {m m' : HashMap K V} {k : K}
    (h : WF hashFn m) (h' : WF hashFn m')
    (hat : at? hashFn m' k = at? hashFn m k) :
    containsKey hashFn m' k = containsKey hashFn m k := by
  cases hc : containsKey hashFn m k with
  | false =>
    rw [containsKey_eq_false_iff h']
    intro v hv
    have hsome : at? hashFn m' k = some v := (at?_eq_some_iff h').mpr hv
    rw [hat] at hsome
    exact (containsKey_eq_false_iff h).mp hc v ((at?_eq_some_iff h).mp hsome)
  | true =>
    obtain ⟨v, hv⟩ := (containsKey_iff h).mp hc
    refine (containsKey_iff h').mpr ⟨v, (at?_eq_some_iff h').mp ?_⟩
    rw [hat]
    exact (at?_eq_some_iff h).mpr hv

/-! ### Claim theorems -/

/-- C1 counterexample: on a freshly default-constructed table
(`lowerLoadFactor = 1/4`, `upperLoadFactor = 3/4`, capacity 16), after the
single completed insert operation the capacity is 16 > 1 yet the load factor
is 1/16 < 1/4, so the claimed invariant
`lowerLoadFactor ≤ size/capacity` does not hold after every operation:
`insert` never runs the lower-bound check. -/
theorem C1_load_factor_cex :
    1 < (runOps id (hashMapDefault : HashMap Nat Nat) [Op.insertOp 0 0]).capacity ∧
    getLoadFactor (runOps id (hashMapDefault : HashMap Nat Nat) [Op.insertOp 0 0]) <
      (runOps id (hashMapDefault : HashMap Nat Nat) [Op.insertOp 0 0]).lowerLoadFactor := by
  decide

/-- C1 (amended): for bounds with `0 ≤ lower < upper` and `2·lower ≤ upper`
(the default bounds qualify), after every sequence of completed operations on
a freshly constructed table — hence after each completed operation of any
sequence — the load factor satisfies `size/capacity ≤ upperLoadFactor`; the
lower inequality of the original claim is refuted by
`C1_load_factor_cex`. -/
theorem C1_load_factor_upper_invariant [Inhabited V] (hashFn : K → Nat)
    (lower upper : ℚ) (hl : 0 ≤ lower) (hlu : lower < upper) (h2l : 2 * lower ≤ upper)
    (ops : List (Op K V)) :
    getLoadFactor (runOps hashFn (freshHashMap lower upper) ops) ≤ upper := by
  have hu : 0 < upper := lt_of_le_of_lt hl hlu
  exact (runOps_loadInv hashFn hu h2l (freshHashMap_loadInv lower upper hu) ops).2.2.1

theorem C1_load_factor_upper_invariant_witness :
    getLoadFactor (runOps id (freshHashMap (1/4) (3/4) : HashMap Nat Nat)
      [Op.insertOp 0 0, Op.eraseOp 0, Op.subscriptOp 5]) ≤ 3/4 :=
  C1_load_factor_upper_invariant id (1/4) (3/4) (by norm_num) (by norm_num)
    (by norm_num) _

/-- C2: on a well-formed table, a successful `insert(k, v)` followed by
`at(k)` returns `v`, and `erase(k)` followed by `containsKey(k)` returns
false. -/
theorem C2_round_trip {hashFn : K → Nat} {m : HashMap K V} (hWF : WF hashFn m)
    (k : K) (v : V) :
    ((insert hashFn m k v).2 = true → at? hashFn (insert hashFn m k v).1 k = some v) ∧
    containsKey hashFn (erase hashFn m k).1 k = false := by
  constructor
  · intro hret
    cases hck : containsKey hashFn m k with
    | false => exact insert_at?_self hWF v hck
    | true =>
      rw [insert_of_contains v hck] at hret
      exact absurd hret Bool.false_ne_true
  · exact erase_containsKey_self hWF k

theorem C2_round_trip_witness :
    ((insert id (hashMapDefault : HashMap Nat Nat) 3 5).2 = true →
      at? id (insert id (hashMapDefault : HashMap Nat Nat) 3 5).1 3 = some 5) ∧
    containsKey id (erase id (hashMapDefault : HashMap Nat Nat) 3).1 3 = false :=
  C2_round_trip (by decide) 3 5

/-- C3: `insert` on a present key returns false and leaves the table record
(entries, size, capacity, bounds) exactly as it was; on an absent key it
returns true, increments the size by one, adds exactly the new entry (up to
the bucket permutation a rehash may apply), stores the value retrievably,
and the upper-bound resize check leaves the load factor at most
`upperLoadFactor` whenever that bound is positive. -/
theorem C3_insert_spec {hashFn : K → Nat} {m : HashMap K V} (hWF : WF hashFn m)
    (k : K) (v : V) :
    (containsKey hashFn m k = true → insert hashFn m k v = (m, false)) ∧
    (containsKey hashFn m k = false →
      (insert hashFn m k v).2 = true ∧
      (insert hashFn m k v).1.size = m.size + 1 ∧
      (entries (insert hashFn m k v).1).Perm ((k, v) :: entries m) ∧
      at? hashFn (insert hashFn m k v).1 k = some v ∧
      (0 < m.upperLoadFactor →
        getLoadFactor (insert hashFn m k v).1 ≤ m.upperLoadFactor)) := by
  constructor
  · exact insert_of_contains v
  · intro hck
    refine ⟨?_, insert_size v hck, insert_entries_perm hWF v hck,
      insert_at?_self hWF v hck, fun hu => insert_load_le hWF v hck hu⟩
    rw [insert_of_not_contains v hck]

theorem C3_insert_spec_witness :
    (containsKey id (hashMapDefault : HashMap Nat Nat) 2 = true →
      insert id (hashMapDefault : HashMap Nat Nat) 2 7 = (hashMapDefault, false)) ∧
    (containsKey id (hashMapDefault : HashMap Nat Nat) 2 = false →
      (insert id (hashMapDefault : HashMap Nat Nat) 2 7).2 = true ∧
      (insert id (hashMapDefault : HashMap Nat Nat) 2 7).1.size =
        (hashMapDefault : HashMap Nat Nat).size + 1 ∧
      (entries (insert id (hashMapDefault : HashMap Nat Nat) 2 7).1).Perm
        ((2, 7) :: entries (hashMapDefault : HashMap Nat Nat)) ∧
      at? id (insert id (hashMapDefault : HashMap Nat Nat) 2 7).1 2 = some 7 ∧
      (0 < (hashMapDefault : HashMap Nat Nat).upperLoadFactor →
        getLoadFactor (insert id (hashMapDefault : HashMap Nat Nat) 2 7).1 ≤
          (hashMapDefault : HashMap Nat Nat).upperLoadFactor)) :=
  C3_insert_spec (by decide) 2 7

/-- C4: `erase` on an absent key returns false and changes nothing; on a
present key it returns true, decrements the size by one, removes exactly
that key (the key is gone, every other key keeps its value), and halves
the capacity exactly once when the new load factor falls below
`lowerLoadFactor` — but only when the capacity is not already at its floor
of 1, below which it never falls. -/
theorem C4_erase_spec {hashFn : K → Nat} {m : HashMap K V} (hWF : WF hashFn m)
    (k : K) :
    (containsKey hashFn m k = false → erase hashFn m k = (m, false)) ∧
    (containsKey hashFn m k = true →
      (erase hashFn m k).2 = true ∧
      (erase hashFn m k).1.size = m.size - 1 ∧
      containsKey hashFn (erase hashFn m k).1 k = false ∧
      (∀ k', k' ≠ k → at? hashFn (erase hashFn m k).1 k' = at? hashFn m k') ∧
      (erase hashFn m k).1.capacity =
        (if ((m.size - 1 : Nat) : ℚ) / (m.capacity : ℚ) < m.lowerLoadFactor ∧
            m.capacity ≠ 1
         then m.capacity / TABLE_FACTOR else m.capacity) ∧
      1 ≤ (erase hashFn m k).1.capacity) := by
  constructor
  · exact erase_of_not_contains
  · intro hck
    refine ⟨?_, erase_size_found hck, erase_containsKey_self hWF k,
      fun k' hne => erase_at?_frame hWF hne, erase_capacity_found hck,
      (erase_WF hWF k).2.1⟩
    rw [erase_of_contains hck]

theorem C4_erase_spec_witness :
    (containsKey id (insert id (hashMapDefault : HashMap Nat Nat) 1 9).1 1 = false →
      erase id (insert id (hashMapDefault : HashMap Nat Nat) 1 9).1 1 =
        ((insert id (hashMapDefault : HashMap Nat Nat) 1 9).1, false)) ∧
    (containsKey id (insert id (hashMapDefault : HashMap Nat Nat) 1 9).1 1 = true →
      (erase id (insert id (hashMapDefault : HashMap Nat Nat) 1 9).1 1).2 = true ∧
      (erase id (insert id (hashMapDefault : HashMap Nat Nat) 1 9).1 1).1.size =
        (insert id (hashMapDefault : HashMap Nat Nat) 1 9).1.size - 1 ∧
      containsKey id (erase id (insert id (hashMapDefault : HashMap Nat Nat) 1 9).1 1).1 1
        = false ∧
      (∀ k', k' ≠ 1 →
        at? id (erase id (insert id (hashMapDefault : HashMap Nat Nat) 1 9).1 1).1 k' =
          at? id (insert id (hashMapDefault : HashMap Nat Nat) 1 9).1 k') ∧
      (erase id (insert id (hashMapDefault : HashMap Nat Nat) 1 9).1 1).1.capacity =
        (if (((insert id (hashMapDefault : HashMap Nat Nat) 1 9).1.size - 1 : Nat) : ℚ) /
              ((insert id (hashMapDefault : HashMap Nat Nat) 1 9).1.capacity : ℚ) <
              (insert id (hashMapDefault : HashMap Nat Nat) 1 9).1.lowerLoadFactor ∧
            (insert id (hashMapDefault : HashMap Nat Nat) 1 9).1.capacity ≠ 1
         then (insert id (hashMapDefault : HashMap Nat Nat) 1 9).1.capacity / TABLE_FACTOR
         else (insert id (hashMapDefault : HashMap Nat Nat) 1 9).1.capacity) ∧
      1 ≤ (erase id (insert id (hashMapDefault : HashMap Nat Nat) 1 9).1 1).1.capacity) :=
  C4_erase_spec (by decide) 1

/-- C5: starting from a table constructed with initial capacity 16, after any
sequence of insert, erase and subscript operations the capacity is a power of
two (growth only doubles, shrinkage only halves and stops at 1) and hence
never falls below 1. -/
theorem C5_capacity_pow2 [Inhabited V] (hashFn : K → Nat) (lower upper : ℚ)
    (ops : List (Op K V)) :
    ∃ j, (runOps hashFn (freshHashMap lower upper) ops).capacity = 2 ^ j ∧
      1 ≤ (runOps hashFn (freshHashMap lower upper) ops).capacity := by
  obtain ⟨j, hj⟩ :=
    runOps_capacity_pow2 hashFn (m := freshHashMap lower upper) ⟨4, rfl⟩ ops
  refine ⟨j, hj, ?_⟩
  rw [hj]
  exact Nat.one_le_two_pow

/-- C6: the bulk-load constructor fails with the mismatched-length
configuration error exactly when the key and value sequences differ in
length, and loading keys `[0, 0]` with values `[1, 2]` yields a table of
size 1 in which the key is mapped to 2: the later pair overwrote the
earlier one, with the single upper-bound check of the constructor applied
after the loop. -/
theorem C6_fromVectors_spec :
    (∀ (A B : Type) [DecidableEq A] (hashFn : A → Nat) (keyVector : List A)
        (valueVector : List B),
      (∃ e, hashMapFromVectors hashFn keyVector valueVector = Except.error e) ↔
        keyVector.length ≠ valueVector.length) ∧
    (hashMapFromVectors id [0, 0] [1, 2]).toOption.map
      (fun m : HashMap Nat Nat => (m.size, at? id m 0)) = some (1, some 2) := by
  constructor
  · intro A B instA hashFn keyVector valueVector
    constructor
    · rintro ⟨e, he⟩
      intro hlen
      rw [hashMapFromVectors, if_neg (by rw [hlen]; exact fun hc => hc rfl)] at he
      exact Except.noConfusion he
    · intro hlen
      exact ⟨HashMapError.differentSizeVectors, by rw [hashMapFromVectors, if_pos hlen]⟩
  · decide

/-- C7: two well-formed tables compare equal exactly when they agree on size,
both load-factor bounds and capacity, and the lookup of every key returns the
same result in both — membership of entries by key lookup, independent of
bucket layout; order of insertion therefore cannot matter, while a missing
entry changes the size or a lookup. -/
theorem C7_operatorEq_spec {hashFn : K → Nat} {m₁ m₂ : HashMap K V}
    (h₁ : WF hashFn m₁) (h₂ : WF hashFn m₂) :
    hmBEq hashFn m₁ m₂ = true ↔
      (m₁.size = m₂.size ∧ m₁.upperLoadFactor = m₂.upperLoadFactor ∧
       m₁.lowerLoadFactor = m₂.lowerLoadFactor ∧ m₁.capacity = m₂.capacity ∧
       ∀ k, at? hashFn m₁ k = at? hashFn m₂ k) :=
  hmBEq_iff h₁ h₂

theorem C7_operatorEq_spec_witness :
    hmBEq id (insert id (insert id (hashMapDefault : HashMap Nat Nat) 0 1).1 16 2).1
        (insert id (insert id (hashMapDefault : HashMap Nat Nat) 16 2).1 0 1).1 = true ↔
      ((insert id (insert id (hashMapDefault : HashMap Nat Nat) 0 1).1 16 2).1.size =
        (insert id (insert id (hashMapDefault : HashMap Nat Nat) 16 2).1 0 1).1.size ∧
       (insert id (insert id (hashMapDefault : HashMap Nat Nat) 0 1).1 16 2).1.upperLoadFactor =
        (insert id (insert id (hashMapDefault : HashMap Nat Nat) 16 2).1 0 1).1.upperLoadFactor ∧
       (insert id (insert id (hashMapDefault : HashMap Nat Nat) 0 1).1 16 2).1.lowerLoadFactor =
        (insert id (insert id (hashMapDefault : HashMap Nat Nat) 16 2).1 0 1).1.lowerLoadFactor ∧
       (insert id (insert id (hashMapDefault : HashMap Nat Nat) 0 1).1 16 2).1.capacity =
        (insert id (insert id (hashMapDefault : HashMap Nat Nat) 16 2).1 0 1).1.capacity ∧
       ∀ k, at? id (insert id (insert id (hashMapDefault : HashMap Nat Nat) 0 1).1 16 2).1 k =
        at? id (insert id (insert id (hashMapDefault : HashMap Nat Nat) 16 2).1 0 1).1 k) :=
  C7_operatorEq_spec (by decide) (by decide)

/-- A concrete three-entry table (capacity 4, keys in two different buckets,
one bucket holding two entries) used to witness the iterator claim. -/
def iterExample : HashMap Nat Nat :=
  { capacity := 4, size := 3, upperLoadFactor := 3 / 4, lowerLoadFactor := 1 / 4,
    table := [[(0, 1)], [(5, 2), (9, 3)], [], []] }

/-- C8: iterating from `begin()` to `end()` yields exactly the stored
entries, in bucket order then within-bucket insertion order (empty buckets
contribute nothing), so each stored entry is visited exactly as often as it
is stored — once, since keys are unique — regardless of how entries are
distributed over buckets. -/
theorem C8_iterator_complete {m : HashMap K V} (hlen : m.table.length = m.capacity) :
    iterListFrom m 0 0 = entries m ∧
    ∀ p : K × V, (iterListFrom m 0 0).count p = (m.table.map (List.count p)).sum := by
  have h := iterList_eq_entries m hlen
  refine ⟨h, fun p => ?_⟩
  rw [h, entries, List.count_flatten]

theorem C8_iterator_complete_witness :
    iterListFrom iterExample 0 0 = entries iterExample ∧
    ∀ p : Nat × Nat, (iterListFrom iterExample 0 0).count p =
      (iterExample.table.map (List.count p)).sum :=
  C8_iterator_complete (by decide)

/-- C9 counterexample: the claim requires construction to fail whenever the
lower bound is not strictly below the upper bound, but constructing with
equal bounds 1/2 and 1/2 succeeds (the source only rejects
`upper < lower`), yielding the usual fresh table with capacity 16 and
size 0. -/
theorem C9_mk_cex :
    (mkHashMap (1/2) (1/2) : Except HashMapError (HashMap Nat Nat)).toOption.map
      (fun m => (m.capacity, m.size)) = some (16, 0) := by
  decide

/-- C9 (amended): construction with explicit bounds fails exactly when
`upper < lower`, `lower < 0` or `upper > 1` — so equal bounds are accepted,
unlike the original claim — and accepted bounds always yield a table with
capacity `INITIAL_CAPACITY = 16` and size 0. -/
theorem C9_mk_spec (lower upper : ℚ) :
    ((upper < lower ∨ lower < 0 ∨ 1 < upper) →
      ∃ e, (mkHashMap lower upper : Except HashMapError (HashMap K V)) =
        Except.error e) ∧
    (¬(upper < lower ∨ lower < 0 ∨ 1 < upper) →
      ∃ m, (mkHashMap lower upper : Except HashMapError (HashMap K V)) =
        Except.ok m ∧ m.capacity = INITIAL_CAPACITY ∧ m.size = 0) := by
  constructor
  · intro h
    rw [mkHashMap]
    by_cases h1 : upper < lower
    · rw [if_pos h1]
      exact ⟨HashMapError.invalidLoadFactorsLowerHigher, rfl⟩
    · rw [if_neg h1]
      have h2 : lower < 0 ∨ 1 < upper := by tauto
      rw [if_pos h2]
      exact ⟨HashMapError.invalidLoadFactorsOutOfRange, rfl⟩
  · intro h
    push_neg at h
    obtain ⟨h1, h2, h3⟩ := h
    rw [mkHashMap, if_neg (not_lt.mpr h1), if_neg (by push_neg; exact ⟨h2, h3⟩)]
    exact ⟨freshHashMap lower upper, rfl, rfl, rfl⟩

theorem C9_mk_spec_witness :
    ∃ m : HashMap Nat Nat, (mkHashMap (1/2) (1/2) : Except HashMapError (HashMap Nat Nat)) =
      Except.ok m ∧ m.capacity = INITIAL_CAPACITY ∧ m.size = 0 :=
  (C9_mk_spec (1/2) (1/2)).2 (by norm_num)

/-- C10: on a well-formed table, `insert(k, v)`, `erase(k)` and
`operator[](k)` leave both the lookup result and the membership of every
other key `k'` unchanged — also when the operation triggers a rehash,
which reinserts every entry unaltered. -/
theorem C10_frame [Inhabited V] {hashFn : K → Nat} {m : HashMap K V}
    (hWF : WF hashFn m) {k k' : K} (hne : k' ≠ k) (v : V) :
    (at? hashFn (insert hashFn m k v).1 k' = at? hashFn m k' ∧
     containsKey hashFn (insert hashFn m k v).1 k' = containsKey hashFn m k') ∧
    (at? hashFn (erase hashFn m k).1 k' = at? hashFn m k' ∧
     containsKey hashFn (erase hashFn m k).1 k' = containsKey hashFn m k') ∧
    (at? hashFn (subscript hashFn m k).1 k' = at? hashFn m k' ∧
     containsKey hashFn (subscript hashFn m k).1 k' = containsKey hashFn m k') := by
  refine ⟨⟨insert_at?_frame hWF v hne, ?_⟩, ⟨erase_at?_frame hWF hne, ?_⟩,
    ⟨subscript_at?_frame hWF hne, ?_⟩⟩
  · exact containsKey_eq_of_at? hWF (insert_WF hWF k v) (insert_at?_frame hWF v hne)
  · exact containsKey_eq_of_at? hWF (erase_WF hWF k) (erase_at?_frame hWF hne)
  · exact containsKey_eq_of_at? hWF (subscript_WF hWF k) (subscript_at?_frame hWF hne)

theorem C10_frame_witness :
    (at? id (insert id (insert id (hashMapDefault : HashMap Nat Nat) 2 5).1 3 7).1 2 =
       at? id (insert id (hashMapDefault : HashMap Nat Nat) 2 5).1 2 ∧
     containsKey id (insert id (insert id (hashMapDefault : HashMap Nat Nat) 2 5).1 3 7).1 2 =
       containsKey id (insert id (hashMapDefault : HashMap Nat Nat) 2 5).1 2) ∧
    (at? id (erase id (insert id (hashMapDefault : HashMap Nat Nat) 2 5).1 3).1 2 =
       at? id (insert id (hashMapDefault : HashMap Nat Nat) 2 5).1 2 ∧
     containsKey id (erase id (insert id (hashMapDefault : HashMap Nat Nat) 2 5).1 3).1 2 =
       containsKey id (insert id (hashMapDefault : HashMap Nat Nat) 2 5).1 2) ∧
    (at? id (subscript id (insert id (hashMapDefault : HashMap Nat Nat) 2 5).1 3).1 2 =
       at? id (insert id (hashMapDefault : HashMap Nat Nat) 2 5).1 2 ∧
     containsKey id (subscript id (insert id (hashMapDefault : HashMap Nat Nat) 2 5).1 3).1 2 =
       containsKey id (insert id (hashMapDefault : HashMap Nat Nat) 2 5).1 2) :=
  C10_frame (by decide) (by decide) 7

end HashTableSpec
